import Mathlib

/-!
Verification of `do_convert` (src/ieee.c)

`do_convert` builds the IEEE-754 binary64 bit pattern of a signed 64-bit
integer by hand: sign bit, biased exponent from the leading-zero count, and
a truncated 52-bit significand.  The C function is embedded below as a pure
function on `Int` (the `int64_t` input) returning the `uint64_t` pattern
`fake_double` as a `Nat`; the final `memcpy` into a `double` is the identity
on bits, and `binary64_value` gives the IEEE-754 reading of those bits.

Three operations of the C code have no behaviour fixed by the language when
pushed past their range, and are made explicit:

* `-input` for `INT64_MIN`: modelled as two's-complement wrapping;
* `__builtin_clzl(0)`: the returned count is a parameter (`Target.clz_zero`);
* a left shift of a 64-bit operand by 64 or more: either the amount is
  reduced modulo 64 or the shifted-out value is 0 (`Target.shift_masked`).

The native conversion the routine is compared with is `rne_convert`, the
IEEE-754 integer-to-binary64 conversion under round to nearest, ties to even;
`rne_convert_nearest` and `round_sig_tie_even` check it against that
description.  Magnitudes are written `n.natAbs`, and `floor(log2 m)` is
`Nat.log 2 m`.
-/

namespace Ieee

/-! ## Machine integers -/

/-- Smallest `int64_t`. -/
def INT64_MIN : Int := -(2 ^ 63)

/-- Largest `int64_t`. -/
def INT64_MAX : Int := 2 ^ 63 - 1

/-- Membership in the range of `int64_t`. -/
def is_int64 (n : Int) : Prop := INT64_MIN ≤ n ∧ n ≤ INT64_MAX

instance (n : Int) : Decidable (is_int64 n) := by
  unfold is_int64; exact inferInstance

/-- Result of a signed 64-bit operation, wrapped into the `int64_t` range. -/
def wrap_int64 (x : Int) : Int := (x + 2 ^ 63) % 2 ^ 64 - 2 ^ 63

/-- Conversion of a signed value to `uint64_t` (reduction modulo `2^64`). -/
def to_uint64 (x : Int) : Nat := (x % 2 ^ 64).toNat

/-- Choices left open by the C language for the operations `do_convert` uses
outside their defined range. -/
structure Target where
  /-- Value returned by `__builtin_clzl(0)`. -/
  clz_zero : Nat
  /-- Whether a shift amount is reduced modulo 64 (`true`) or an over-wide
  shift pushes every bit out (`false`). -/
  shift_masked : Bool

/-- Number of zero bits of `x` above its most significant set bit, scanning
the `bits` low-order positions from the top; `bits` when none is set. -/
def clz_scan : Nat → Nat → Nat
  | 0, _ => 0
  | b + 1, x => if x / 2 ^ b % 2 = 1 then 0 else 1 + clz_scan b x

/-- The builtin `__builtin_clzl` on a 64-bit `unsigned long`: the number of
leading zero bits for a nonzero argument, the target's choice for zero. -/
def builtin_clzl (t : Target) (x : Nat) : Nat :=
  if x = 0 then t.clz_zero else clz_scan 64 x

/-- The C expression `x << s` on `uint64_t`. -/
def shl64 (t : Target) (x s : Nat) : Nat :=
  if t.shift_masked then (x * 2 ^ (s % 64)) % 2 ^ 64 else (x * 2 ^ s) % 2 ^ 64

/-- The C expression `x >> s` on `uint64_t`, for `s < 64`. -/
def shr64 (x s : Nat) : Nat := x / 2 ^ s

/-! ## The conversion routine -/

/-- Line 7: `uint64_t sign = (input < 0);`. -/
def sign (input : Int) : Nat := if input < 0 then 1 else 0

/-- Lines 11-14: `magnitude = -input` when `sign` is set, else `input`. -/
def magnitude (input : Int) : Nat :=
  if sign input ≠ 0 then to_uint64 (wrap_int64 (-input)) else to_uint64 input

/-- Line 17: `int leading_zeros = __builtin_clzl(magnitude);`. -/
def leading_zeros (t : Target) (input : Int) : Nat :=
  builtin_clzl t (magnitude input)

/-- Line 18: `uint64_t exponent = (63 - leading_zeros) + 1023;`, computed in
`int` and converted to `uint64_t`. -/
def exponent (t : Target) (input : Int) : Nat :=
  to_uint64 ((63 - (leading_zeros t input : Int)) + 1023)

/-- Line 19: `significand = (magnitude << (leading_zeros + 1)) >> 12;`. -/
def significand (t : Target) (input : Int) : Nat :=
  shr64 (shl64 t (magnitude input) (leading_zeros t input + 1)) 12

/-- Lines 21-23: `sign << 63 | exponent << 52 | significand`, the bit pattern
that `do_convert` copies into the returned `double`. -/
def do_convert (t : Target) (input : Int) : Nat :=
  shl64 t (sign input) 63 ||| shl64 t (exponent t input) 52 ||| significand t input

/-! ## IEEE-754 binary64 reading of a bit pattern -/

/-- Bit 63 of a pattern. -/
def sign_bit (p : Nat) : Nat := p / 2 ^ 63 % 2

/-- Bits 62..52 of a pattern: the biased exponent. -/
def exp_field (p : Nat) : Nat := p / 2 ^ 52 % 2 ^ 11

/-- Bits 51..0 of a pattern: the fraction. -/
def frac_field (p : Nat) : Nat := p % 2 ^ 52

/-- The value `(-1)^s * 2^(e-1023) * (1 + f/2^52)` of a normal number. -/
def normal_value (s e f : Nat) : ℚ :=
  (-1) ^ s * (2 : ℚ) ^ ((e : Int) - 1023) * (1 + (f : ℚ) / 2 ^ 52)

/-- IEEE-754 binary64 value of a 64-bit pattern: `none` for infinities and
NaNs (exponent field 2047), the subnormal formula for exponent field 0, the
normal formula otherwise. -/
def binary64_value (p : Nat) : Option ℚ :=
  if exp_field p = 2047 then none
  else if exp_field p = 0 then
    some ((-1) ^ sign_bit p * (2 : ℚ) ^ (-1022 : Int) * ((frac_field p : ℚ) / 2 ^ 52))
  else some (normal_value (sign_bit p) (exp_field p) (frac_field p))

/-! ## Reference conversion (IEEE-754 round to nearest, ties to even) -/

/-- Index of the most significant set bit of `m`, that is `floor(log2 m)`,
found by halving at most `fuel` times. -/
def floor_log2_fuel : Nat → Nat → Nat
  | 0, _ => 0
  | fuel + 1, m => if m < 2 then 0 else floor_log2_fuel fuel (m / 2) + 1

/-- The value `floor(log2 m)` for a magnitude below `2^64` (0 for `m = 0`). -/
def floor_log2 (m : Nat) : Nat := floor_log2_fuel 64 m

/-- The 53-bit integer significand of `m` (most significant set bit `k`)
under round to nearest, ties to even: exact when `k ≤ 52`; otherwise the
quotient by `2^(k-52)`, incremented when the discarded remainder exceeds half
of `2^(k-52)`, or equals half and the quotient is odd.  The result may be
`2^53` when the increment carries out. -/
def round_sig (m k : Nat) : Nat :=
  if k ≤ 52 then m * 2 ^ (52 - k)
  else if 2 ^ (k - 52) < 2 * (m % 2 ^ (k - 52))
      ∨ (2 * (m % 2 ^ (k - 52)) = 2 ^ (k - 52) ∧ m / 2 ^ (k - 52) % 2 = 1)
    then m / 2 ^ (k - 52) + 1
    else m / 2 ^ (k - 52)

/-- Reference conversion of an integer to binary64 as a standards-compliant
native conversion performs it (IEEE-754 `convertFromInt`, rounding direction
roundTiesToEven), returned as a bit pattern.  Zero maps to `+0.0`; a
significand that rounds up to `2^53` is renormalised to the next exponent. -/
def rne_convert (n : Int) : Nat :=
  if n = 0 then 0
  else if round_sig n.natAbs (floor_log2 n.natAbs) = 2 ^ 53 then
    (if n < 0 then 1 else 0) * 2 ^ 63 + (floor_log2 n.natAbs + 1 + 1023) * 2 ^ 52
  else
    (if n < 0 then 1 else 0) * 2 ^ 63 + (floor_log2 n.natAbs + 1023) * 2 ^ 52
      + (round_sig n.natAbs (floor_log2 n.natAbs) - 2 ^ 52)

/-- Integral part of a rational, truncating toward zero (the C conversion of
a floating-point value to an integer type). -/
def integral_part (q : ℚ) : Int := q.num.tdiv q.den

/-! ## Closed forms used in the proofs -/

/-- The fraction kept by the shifts of line 19, for a magnitude `m` whose most
significant set bit is bit `k`. -/
def kept_fraction (m k : Nat) : Nat :=
  if k ≤ 52 then (m - 2 ^ k) * 2 ^ (52 - k) else (m - 2 ^ k) / 2 ^ (k - 52)

/-- A magnitude with every bit below its 53rd significant bit cleared:
`floor(m / 2^(k-52)) * 2^(k-52)` for `k = floor(log2 m)` (the exponent
`k - 52` is 0 when `k ≤ 52`, leaving `m` unchanged). -/
def truncate53 (m : Nat) : Nat :=
  m / 2 ^ (Nat.log 2 m - 52) * 2 ^ (Nat.log 2 m - 52)

/-- The integer `n` truncated toward zero to 53 significant bits. -/
def truncated (n : Int) : Int := n.sign * (truncate53 n.natAbs : Int)

/-- The 53-bit integer significand of `m` (most significant set bit `k`)
with the bits below it dropped. -/
def trunc_sig (m k : Nat) : Nat :=
  if k ≤ 52 then m * 2 ^ (52 - k) else m / 2 ^ (k - 52)

/-- One unit in the last place of a binary64 value in the binade of `n`:
`2^(k-52)` for `k = floor(log2 |n|)`. -/
def ulp (n : Int) : ℚ := (2 : ℚ) ^ ((Nat.log 2 n.natAbs : Int) - 52)

/-! ## Auxiliary facts about the machine operations -/

theorem clz_scan_spec (b x : Nat) (hx : 0 < x) (hb : x < 2 ^ b) :
    ∃ k, k < b ∧ clz_scan b x = b - 1 - k ∧ 2 ^ k ≤ x ∧ x < 2 ^ (k + 1) := by
  induction b with
  | zero => simp at hb; omega
  | succ b ih =>
    have hpos : 0 < 2 ^ b := Nat.two_pow_pos b
    by_cases hbit : x / 2 ^ b % 2 = 1
    · refine ⟨b, by omega, by simp [clz_scan, hbit], ?_, hb⟩
      by_contra hlt
      rw [Nat.div_eq_of_lt (by omega)] at hbit
      simp at hbit
    · have hlt : x < 2 ^ b := by
        by_contra hge
        have h1 : 1 ≤ x / 2 ^ b := (Nat.one_le_div_iff hpos).2 (by omega)
        have h2 : x / 2 ^ b < 2 := by
          rw [Nat.div_lt_iff_lt_mul hpos]
          rw [pow_succ] at hb
          omega
        omega
      obtain ⟨k, hk, hc, hlo, hhi⟩ := ih hlt
      refine ⟨k, by omega, ?_, hlo, hhi⟩
      simp only [clz_scan, hbit, if_false]
      omega

theorem magnitude_eq_natAbs (n : Int) (hn : is_int64 n) : magnitude n = n.natAbs := by
  unfold is_int64 INT64_MIN INT64_MAX at hn
  unfold magnitude sign to_uint64 wrap_int64
  split_ifs <;> omega

theorem clzl_nonzero (t : Target) (m : Nat) (h0 : 0 < m) (h : m < 2 ^ 64) :
    builtin_clzl t m = 63 - Nat.log 2 m ∧ Nat.log 2 m ≤ 63 := by
  obtain ⟨k, hk, hc, hlo, hhi⟩ := clz_scan_spec 64 m h0 h
  have hlog : Nat.log 2 m = k := Nat.log_eq_of_pow_le_of_lt_pow hlo hhi
  unfold builtin_clzl
  rw [if_neg (by omega), hc, hlog]
  omega

theorem shl_shr_fraction (m k : Nat) (hk1 : 1 ≤ k) (hk : k ≤ 63)
    (hlo : 2 ^ k ≤ m) (hhi : m < 2 ^ (k + 1)) :
    (m * 2 ^ (64 - k)) % 2 ^ 64 / 2 ^ 12 = kept_fraction m k := by
  obtain ⟨r, rfl⟩ : ∃ r, m = 2 ^ k + r := ⟨m - 2 ^ k, by omega⟩
  have hr : r < 2 ^ k := by rw [pow_succ] at hhi; omega
  have h64 : 2 ^ k * 2 ^ (64 - k) = 2 ^ 64 := by
    rw [← pow_add]; congr 1; omega
  have hlt : r * 2 ^ (64 - k) < 2 ^ 64 := by
    rw [← h64]
    exact Nat.mul_lt_mul_of_pos_right hr (Nat.two_pow_pos _)
  have hmod : ((2 ^ k + r) * 2 ^ (64 - k)) % 2 ^ 64 = r * 2 ^ (64 - k) := by
    rw [Nat.add_mul, h64, Nat.add_mod_left, Nat.mod_eq_of_lt hlt]
  rw [hmod]
  unfold kept_fraction
  simp only [Nat.add_sub_cancel_left]
  split_ifs with h52
  · have e : 2 ^ (64 - k) = 2 ^ (52 - k) * 2 ^ 12 := by
      rw [← pow_add]; congr 1; omega
    rw [e, ← Nat.mul_assoc, Nat.mul_div_cancel _ (Nat.two_pow_pos 12)]
  · have e : 2 ^ 12 = 2 ^ (64 - k) * 2 ^ (k - 52) := by
      rw [← pow_add]; congr 1; omega
    rw [e, Nat.mul_comm r, Nat.mul_div_mul_left _ _ (Nat.two_pow_pos _)]

theorem kept_fraction_lt (m k : Nat) (hlo : 2 ^ k ≤ m) (hhi : m < 2 ^ (k + 1)) :
    kept_fraction m k < 2 ^ 52 := by
  have hr : m - 2 ^ k < 2 ^ k := by rw [pow_succ] at hhi; omega
  unfold kept_fraction
  split_ifs with h52
  · have e : 2 ^ k * 2 ^ (52 - k) = 2 ^ 52 := by
      rw [← pow_add]; congr 1; omega
    rw [← e]
    exact Nat.mul_lt_mul_of_pos_right hr (Nat.two_pow_pos _)
  · rw [Nat.div_lt_iff_lt_mul (Nat.two_pow_pos _), ← pow_add]
    have : 52 + (k - 52) = k := by omega
    rw [this]; exact hr

theorem shl64_small (t : Target) (x s : Nat) (hs : s < 64) (hx : x * 2 ^ s < 2 ^ 64) :
    shl64 t x s = x * 2 ^ s := by
  unfold shl64
  rw [Nat.mod_eq_of_lt hs, Nat.mod_eq_of_lt hx]
  simp

theorem or_fields (s e f : Nat) (he : e < 2 ^ 11) (hf : f < 2 ^ 52) :
    s * 2 ^ 63 ||| e * 2 ^ 52 ||| f = s * 2 ^ 63 + e * 2 ^ 52 + f := by
  have h1 : e * 2 ^ 52 < 2 ^ 63 := by omega
  have e1 : s * 2 ^ 63 ||| e * 2 ^ 52 = s * 2 ^ 63 + e * 2 ^ 52 := by
    rw [Nat.mul_comm s, Nat.mul_add_lt_is_or h1]
  have e2 : s * 2 ^ 63 + e * 2 ^ 52 = 2 ^ 52 * (s * 2 ^ 11 + e) := by ring
  rw [e1, e2, Nat.mul_add_lt_is_or hf]

theorem fields_of_sum (s e f : Nat) (hs : s ≤ 1) (he : e < 2 ^ 11) (hf : f < 2 ^ 52) :
    sign_bit (s * 2 ^ 63 + e * 2 ^ 52 + f) = s ∧
    exp_field (s * 2 ^ 63 + e * 2 ^ 52 + f) = e ∧
    frac_field (s * 2 ^ 63 + e * 2 ^ 52 + f) = f := by
  unfold sign_bit exp_field frac_field
  refine ⟨?_, ?_, ?_⟩ <;> omega

theorem natAbs_bounds (n : Int) (hn : is_int64 n) (h0 : n ≠ 0) :
    0 < n.natAbs ∧ n.natAbs < 2 ^ 64 := by
  unfold is_int64 INT64_MIN INT64_MAX at hn
  omega

theorem log_bounds (m : Nat) (h0 : 0 < m) :
    2 ^ Nat.log 2 m ≤ m ∧ m < 2 ^ (Nat.log 2 m + 1) :=
  ⟨Nat.pow_log_le_self 2 (by omega), Nat.lt_pow_succ_log_self (by norm_num) m⟩

theorem leading_zeros_nonzero (t : Target) (n : Int) (hn : is_int64 n) (h0 : n ≠ 0) :
    leading_zeros t n = 63 - Nat.log 2 n.natAbs ∧ Nat.log 2 n.natAbs ≤ 63 := by
  obtain ⟨hpos, hlt⟩ := natAbs_bounds n hn h0
  unfold leading_zeros
  rw [magnitude_eq_natAbs n hn]
  exact clzl_nonzero t _ hpos hlt

theorem exponent_nonzero (t : Target) (n : Int) (hn : is_int64 n) (h0 : n ≠ 0) :
    exponent t n = Nat.log 2 n.natAbs + 1023 := by
  obtain ⟨hlz, hk⟩ := leading_zeros_nonzero t n hn h0
  unfold exponent to_uint64
  rw [hlz]
  omega

theorem significand_nonzero (t : Target) (n : Int) (hn : is_int64 n) (h0 : n ≠ 0) :
    significand t n = kept_fraction n.natAbs (Nat.log 2 n.natAbs) := by
  obtain ⟨hlz, hk⟩ := leading_zeros_nonzero t n hn h0
  obtain ⟨hpos, hlt⟩ := natAbs_bounds n hn h0
  obtain ⟨hlo, hhi⟩ := log_bounds n.natAbs hpos
  unfold significand shr64
  rw [hlz, magnitude_eq_natAbs n hn]
  generalize Nat.log 2 n.natAbs = k at *
  generalize n.natAbs = m at *
  rcases Nat.eq_zero_or_pos k with hk0 | hk1
  · subst hk0
    have hm : m = 1 := by simp at hlo hhi; omega
    subst hm
    unfold shl64 kept_fraction
    cases t.shift_masked <;> simp
  · have hs : 63 - k + 1 = 64 - k := by omega
    rw [hs, ← shl_shr_fraction m k hk1 hk hlo hhi]
    unfold shl64
    have : (64 - k) % 64 = 64 - k := Nat.mod_eq_of_lt (by omega)
    rw [this]
    simp

/-- Closed form of the pattern for every nonzero input: the three fields sit
side by side. -/
theorem do_convert_nonzero (t : Target) (n : Int) (hn : is_int64 n) (h0 : n ≠ 0) :
    do_convert t n =
      sign n * 2 ^ 63 + (Nat.log 2 n.natAbs + 1023) * 2 ^ 52
        + kept_fraction n.natAbs (Nat.log 2 n.natAbs) := by
  obtain ⟨hlz, hk⟩ := leading_zeros_nonzero t n hn h0
  obtain ⟨hpos, hlt⟩ := natAbs_bounds n hn h0
  obtain ⟨hlo, hhi⟩ := log_bounds n.natAbs hpos
  have hf := kept_fraction_lt _ _ hlo hhi
  have hs : sign n ≤ 1 := by unfold sign; split_ifs <;> omega
  unfold do_convert
  rw [exponent_nonzero t n hn h0, significand_nonzero t n hn h0,
    shl64_small t _ 63 (by omega) (by omega), shl64_small t _ 52 (by omega) (by omega),
    or_fields _ _ _ (by omega) hf]

theorem kept_fraction_scaled (m k : Nat) (hlo : 2 ^ k ≤ m) :
    (2 ^ 52 + kept_fraction m k) * 2 ^ k = m / 2 ^ (k - 52) * 2 ^ (k - 52) * 2 ^ 52 := by
  obtain ⟨r, rfl⟩ : ∃ r, m = 2 ^ k + r := ⟨m - 2 ^ k, by omega⟩
  unfold kept_fraction
  simp only [Nat.add_sub_cancel_left]
  split_ifs with h52
  · have hd : k - 52 = 0 := by omega
    have e : 2 ^ (52 - k) * 2 ^ k = 2 ^ 52 := by
      rw [← pow_add]; congr 1; omega
    rw [hd, pow_zero, Nat.div_one, Nat.mul_one, Nat.add_mul, Nat.mul_assoc, e]
    ring
  · have e : 2 ^ k = 2 ^ 52 * 2 ^ (k - 52) := by
      rw [← pow_add]; congr 1; omega
    have hq : (2 ^ 52 * 2 ^ (k - 52) + r) / 2 ^ (k - 52) = 2 ^ 52 + r / 2 ^ (k - 52) := by
      rw [Nat.mul_comm, Nat.mul_add_div (Nat.two_pow_pos _)]
    rw [e, hq]
    ring

theorem scaled_value (P K F T : ℚ) (hP : P ≠ 0) (h : (P + F) * K = T * P) :
    K * (1 + F / P) = T := by
  field_simp
  linarith

theorem normal_value_kept (s m k : Nat) (hlo : 2 ^ k ≤ m) :
    normal_value s (k + 1023) (kept_fraction m k)
      = (-1) ^ s * ((m / 2 ^ (k - 52) * 2 ^ (k - 52) : Nat) : ℚ) := by
  have h := congrArg (fun x : Nat => (x : ℚ)) (kept_fraction_scaled m k hlo)
  simp only [Nat.cast_mul, Nat.cast_add, Nat.cast_pow, Nat.cast_ofNat] at h
  unfold normal_value
  have hz : (((k + 1023 : Nat) : Int) - 1023) = (k : Int) := by push_cast; ring
  rw [hz, zpow_natCast, mul_assoc,
    scaled_value ((2 : ℚ) ^ 52) _ _ _ (pow_ne_zero _ two_ne_zero) h]
  simp only [Nat.cast_mul, Nat.cast_pow, Nat.cast_ofNat]

theorem floor_log2_fuel_eq (fuel m : Nat) (h : m < 2 ^ fuel) :
    floor_log2_fuel fuel m = Nat.log 2 m := by
  induction fuel generalizing m with
  | zero =>
    have : m = 0 := by simpa using h
    subst this
    simp [floor_log2_fuel]
  | succ f ih =>
    unfold floor_log2_fuel
    split_ifs with h2
    · exact (Nat.log_of_lt h2).symm
    · have hm : m / 2 < 2 ^ f := by
        rw [pow_succ] at h
        omega
      have hlog : Nat.log 2 m = Nat.log 2 (m / 2) + 1 :=
        Nat.log_of_one_lt_of_le (by norm_num) (by omega)
      rw [ih _ hm, hlog]

theorem floor_log2_eq (m : Nat) (h : m < 2 ^ 64) : floor_log2 m = Nat.log 2 m :=
  floor_log2_fuel_eq 64 m h

theorem trunc_sig_bounds (m k : Nat) (hlo : 2 ^ k ≤ m) (hhi : m < 2 ^ (k + 1)) :
    2 ^ 52 ≤ trunc_sig m k ∧ trunc_sig m k < 2 ^ 53 := by
  unfold trunc_sig
  split_ifs with h52
  · have e : 2 ^ k * 2 ^ (52 - k) = 2 ^ 52 := by
      rw [← pow_add]; congr 1; omega
    have e2 : 2 ^ (k + 1) * 2 ^ (52 - k) = 2 ^ 53 := by
      rw [← pow_add]; congr 1; omega
    constructor
    · rw [← e]; exact Nat.mul_le_mul_right _ hlo
    · rw [← e2]; exact Nat.mul_lt_mul_of_pos_right hhi (Nat.two_pow_pos _)
  · have e : 2 ^ k = 2 ^ 52 * 2 ^ (k - 52) := by
      rw [← pow_add]; congr 1; omega
    have e2 : 2 ^ (k + 1) = 2 ^ 53 * 2 ^ (k - 52) := by
      rw [← pow_add]; congr 1; omega
    constructor
    · rw [Nat.le_div_iff_mul_le (Nat.two_pow_pos _), ← e]; exact hlo
    · rw [Nat.div_lt_iff_lt_mul (Nat.two_pow_pos _), ← e2]; exact hhi

theorem kept_fraction_eq_sub (m k : Nat) (hlo : 2 ^ k ≤ m) :
    kept_fraction m k = trunc_sig m k - 2 ^ 52 := by
  unfold kept_fraction trunc_sig
  split_ifs with h52
  · have e : 2 ^ k * 2 ^ (52 - k) = 2 ^ 52 := by
      rw [← pow_add]; congr 1; omega
    rw [Nat.sub_mul, e]
  · have e : 2 ^ k = 2 ^ (k - 52) * 2 ^ 52 := by
      rw [← pow_add]; congr 1; omega
    rw [e] at hlo ⊢
    exact Nat.sub_mul_div _ _ _ hlo

/-- The three fields of the pattern built for a nonzero input. -/
theorem fields_nonzero (t : Target) (n : Int) (hn : is_int64 n) (h0 : n ≠ 0) :
    sign_bit (do_convert t n) = sign n ∧
    exp_field (do_convert t n) = Nat.log 2 n.natAbs + 1023 ∧
    frac_field (do_convert t n) = kept_fraction n.natAbs (Nat.log 2 n.natAbs) := by
  obtain ⟨hlz, hk⟩ := leading_zeros_nonzero t n hn h0
  obtain ⟨hpos, hlt⟩ := natAbs_bounds n hn h0
  obtain ⟨hlo, hhi⟩ := log_bounds n.natAbs hpos
  have hs : sign n ≤ 1 := by unfold sign; split_ifs <;> omega
  rw [do_convert_nonzero t n hn h0]
  exact fields_of_sum _ _ _ hs (by omega) (kept_fraction_lt _ _ hlo hhi)

theorem signed_truncate (n : Int) (T : Nat) :
    (-1 : ℚ) ^ sign n * (T : ℚ) = ((n.sign * (T : Int) : Int) : ℚ) ∨ n = 0 := by
  rcases lt_trichotomy n 0 with h | h | h
  · left
    have : sign n = 1 := by unfold sign; simp [h]
    rw [this, Int.sign_eq_neg_one_of_neg h]
    push_cast
    ring
  · right; exact h
  · left
    have : sign n = 0 := by unfold sign; simp [not_lt.2 h.le]
    rw [this, Int.sign_eq_one_of_pos h]
    push_cast
    ring

/-- The value of the pattern built for a nonzero input is the input truncated
toward zero to 53 significant bits. -/
theorem normal_value_nonzero (t : Target) (n : Int) (hn : is_int64 n) (h0 : n ≠ 0) :
    normal_value (sign_bit (do_convert t n)) (exp_field (do_convert t n))
      (frac_field (do_convert t n)) = ((truncated n : Int) : ℚ) := by
  obtain ⟨hs, he, hf⟩ := fields_nonzero t n hn h0
  obtain ⟨hpos, hlt⟩ := natAbs_bounds n hn h0
  obtain ⟨hlo, hhi⟩ := log_bounds n.natAbs hpos
  rw [hs, he, hf, normal_value_kept _ _ _ hlo]
  rcases signed_truncate n (n.natAbs / 2 ^ (Nat.log 2 n.natAbs - 52)
      * 2 ^ (Nat.log 2 n.natAbs - 52)) with h | h
  · rw [h]; rfl
  · exact absurd h h0

theorem binary64_value_nonzero (t : Target) (n : Int) (hn : is_int64 n) (h0 : n ≠ 0) :
    binary64_value (do_convert t n) = some ((truncated n : Int) : ℚ) := by
  obtain ⟨hs, he, hf⟩ := fields_nonzero t n hn h0
  obtain ⟨hlz, hk⟩ := leading_zeros_nonzero t n hn h0
  unfold binary64_value
  rw [if_neg (by omega), if_neg (by omega), normal_value_nonzero t n hn h0]

theorem truncate53_of_dvd (m : Nat) (h : 2 ^ (Nat.log 2 m - 52) ∣ m) : truncate53 m = m :=
  Nat.div_mul_cancel h

theorem truncated_of_dvd (n : Int) (h : 2 ^ (Nat.log 2 n.natAbs - 52) ∣ n.natAbs) :
    truncated n = n := by
  unfold truncated
  rw [truncate53_of_dvd _ h]
  exact Int.sign_mul_natAbs n

theorem log_le_52 (m : Nat) (h : m < 2 ^ 53) : Nat.log 2 m ≤ 52 := by
  rcases Nat.eq_zero_or_pos m with h0 | h0
  · subst h0; simp
  · have := Nat.log_lt_of_lt_pow (by omega) h
    omega

theorem dvd_of_small (m : Nat) (h : m < 2 ^ 53) : 2 ^ (Nat.log 2 m - 52) ∣ m := by
  have : Nat.log 2 m - 52 = 0 := by have := log_le_52 m h; omega
  rw [this]; simp

theorem round_sig_of_dvd (m k : Nat) (h : 2 ^ (k - 52) ∣ m) :
    round_sig m k = trunc_sig m k := by
  unfold round_sig trunc_sig
  split_ifs with h52 hc
  · rfl
  · exfalso
    have hz : m % 2 ^ (k - 52) = 0 := Nat.mod_eq_zero_of_dvd h
    have hp : 0 < 2 ^ (k - 52) := Nat.two_pow_pos _
    rw [hz] at hc
    omega
  · rfl

/-- Whenever nothing is lost by truncation, the pattern built by `do_convert`
is the one the reference conversion produces. -/
theorem rne_convert_of_dvd (t : Target) (n : Int) (hn : is_int64 n) (h0 : n ≠ 0)
    (h : 2 ^ (Nat.log 2 n.natAbs - 52) ∣ n.natAbs) :
    do_convert t n = rne_convert n := by
  obtain ⟨hpos, hlt⟩ := natAbs_bounds n hn h0
  obtain ⟨hlo, hhi⟩ := log_bounds n.natAbs hpos
  obtain ⟨hb1, hb2⟩ := trunc_sig_bounds _ _ hlo hhi
  unfold rne_convert
  rw [if_neg h0, floor_log2_eq _ hlt, round_sig_of_dvd _ _ h, if_neg (by omega),
    do_convert_nonzero t n hn h0, kept_fraction_eq_sub _ _ hlo]
  rfl

theorem is_int64_of_small (n : Int) (h : n.natAbs < 2 ^ 53) : is_int64 n := by
  unfold is_int64 INT64_MIN INT64_MAX
  omega

theorem value_of_small (t : Target) (n : Int) (h0 : 0 < n.natAbs) (h53 : n.natAbs < 2 ^ 53) :
    binary64_value (do_convert t n) = some (n : ℚ) := by
  have hn := is_int64_of_small n h53
  rw [binary64_value_nonzero t n hn (by omega), truncated_of_dvd n (dvd_of_small _ h53)]

theorem integral_part_intCast (n : Int) : integral_part (n : ℚ) = n := by
  simp [integral_part]

theorem do_convert_zero (t : Target) :
    do_convert t 0 = to_uint64 ((63 - (t.clz_zero : Int)) + 1023) * 2 ^ 52 % 2 ^ 64 := by
  have hm : magnitude 0 = 0 := by decide
  have hs : sign 0 = 0 := by decide
  unfold do_convert significand shr64 exponent leading_zeros
  rw [hm, hs]
  unfold builtin_clzl shl64
  cases t.shift_masked <;> simp

/-! ## Every finite binary64 value against a truncated magnitude -/

theorem frac_unit_interval (f : Nat) (hf : f < 2 ^ 52) :
    (0 : ℚ) ≤ (f : ℚ) / 2 ^ 52 ∧ (f : ℚ) / 2 ^ 52 < 1 := by
  have hpos : (0 : ℚ) < 2 ^ 52 := by positivity
  have hfq : (f : ℚ) < 2 ^ 52 := by exact_mod_cast hf
  exact ⟨by positivity, (div_lt_one hpos).2 hfq⟩

/-- The magnitude of a finite binary64 value is either below 1 (subnormals
and zeros) or of the normal form `2^(e-1023) * (1 + f/2^52)`. -/
theorem finite_magnitude (p : Nat) (w : ℚ) (h : binary64_value p = some w) :
    |w| < 1 ∨ ∃ e f : Nat, f < 2 ^ 52 ∧
      |w| = (2 : ℚ) ^ ((e : Int) - 1023) * (1 + (f : ℚ) / 2 ^ 52) := by
  have hf : frac_field p < 2 ^ 52 := Nat.mod_lt _ (Nat.two_pow_pos 52)
  obtain ⟨hf0, hf1⟩ := frac_unit_interval _ hf
  unfold binary64_value at h
  split_ifs at h with h1 h2
  · left
    have hw := (Option.some.inj h).symm
    have hz : (0 : ℚ) ≤ (2 : ℚ) ^ (-1022 : Int) := by positivity
    have hz1 : (2 : ℚ) ^ (-1022 : Int) ≤ 1 := by
      have := zpow_le_zpow_right₀ (a := (2 : ℚ)) (by norm_num) (show (-1022 : Int) ≤ 0 by norm_num)
      simpa using this
    rw [hw, abs_mul, abs_mul, abs_pow, abs_neg, abs_one, one_pow, one_mul,
      abs_of_nonneg hz, abs_of_nonneg hf0]
    calc (2 : ℚ) ^ (-1022 : Int) * ((frac_field p : ℚ) / 2 ^ 52)
        ≤ 1 * ((frac_field p : ℚ) / 2 ^ 52) := mul_le_mul_of_nonneg_right hz1 hf0
      _ < 1 := by rw [one_mul]; exact hf1
  · right
    refine ⟨exp_field p, frac_field p, hf, ?_⟩
    have hw := (Option.some.inj h).symm
    have hz : (0 : ℚ) ≤ (2 : ℚ) ^ ((exp_field p : Int) - 1023) := by positivity
    have hz2 : (0 : ℚ) ≤ 1 + (frac_field p : ℚ) / 2 ^ 52 := by linarith
    rw [hw]
    unfold normal_value
    rw [abs_mul, abs_mul, abs_pow, abs_neg, abs_one, one_pow, one_mul,
      abs_of_nonneg hz, abs_of_nonneg hz2]

theorem truncate_ge_pow (m k : Nat) (hk : 52 ≤ k) (hlo : 2 ^ k ≤ m) :
    2 ^ k ≤ m / 2 ^ (k - 52) * 2 ^ (k - 52) := by
  have e : 2 ^ k = 2 ^ 52 * 2 ^ (k - 52) := by
    rw [← pow_add]; congr 1; omega
  have hq : 2 ^ 52 ≤ m / 2 ^ (k - 52) := by
    rw [Nat.le_div_iff_mul_le (Nat.two_pow_pos _), ← e]; exact hlo
  calc 2 ^ k = 2 ^ 52 * 2 ^ (k - 52) := e
    _ ≤ m / 2 ^ (k - 52) * 2 ^ (k - 52) := Nat.mul_le_mul_right _ hq

/-- No normal binary64 magnitude lies strictly between two consecutive
multiples `q * 2^(k-52)` and `(q+1) * 2^(k-52)` of the unit of the binade of
`m`, where `q = floor(m / 2^(k-52))`. -/
theorem normal_grid (m k : Nat) (hk : 52 ≤ k) (hlo : 2 ^ k ≤ m) (hhi : m < 2 ^ (k + 1))
    (e f : Nat) (hf : f < 2 ^ 52) :
    (2 : ℚ) ^ ((e : Int) - 1023) * (1 + (f : ℚ) / 2 ^ 52)
        ≤ ((m / 2 ^ (k - 52) * 2 ^ (k - 52) : Nat) : ℚ) ∨
    (((m / 2 ^ (k - 52) + 1) * 2 ^ (k - 52) : Nat) : ℚ)
        ≤ (2 : ℚ) ^ ((e : Int) - 1023) * (1 + (f : ℚ) / 2 ^ 52) := by
  obtain ⟨hf0, hf1⟩ := frac_unit_interval _ hf
  generalize (e : Int) - 1023 = j
  have hpj : (0 : ℚ) < (2 : ℚ) ^ j := by positivity
  have hU : 0 < 2 ^ (k - 52) := Nat.two_pow_pos _
  have e2 : 2 ^ k = 2 ^ 52 * 2 ^ (k - 52) := by
    rw [← pow_add]; congr 1; omega
  rcases lt_trichotomy j (k : Int) with hlt | heq | hgt
  · left
    have hT : ((2 ^ k : Nat) : ℚ) ≤ ((m / 2 ^ (k - 52) * 2 ^ (k - 52) : Nat) : ℚ) :=
      Nat.cast_le.2 (truncate_ge_pow m k hk hlo)
    have h1 : (2 : ℚ) ^ j * (1 + (f : ℚ) / 2 ^ 52) ≤ (2 : ℚ) ^ j * 2 :=
      mul_le_mul_of_nonneg_left (by linarith) hpj.le
    have h2 : (2 : ℚ) ^ j * 2 = (2 : ℚ) ^ (j + 1) := by
      rw [zpow_add_one₀ (by norm_num)]
    have h3 : (2 : ℚ) ^ (j + 1) ≤ (2 : ℚ) ^ (k : Int) :=
      zpow_le_zpow_right₀ (by norm_num) (by omega)
    have h4 : (2 : ℚ) ^ (k : Int) = ((2 ^ k : Nat) : ℚ) := by
      rw [zpow_natCast]; push_cast; rfl
    linarith
  · subst heq
    have hval : (2 : ℚ) ^ (k : Int) * (1 + (f : ℚ) / 2 ^ 52)
        = (((2 ^ 52 + f) * 2 ^ (k - 52) : Nat) : ℚ) := by
      have e2q := congrArg (fun x : Nat => (x : ℚ)) e2
      simp only [Nat.cast_mul, Nat.cast_pow, Nat.cast_ofNat] at e2q
      rw [zpow_natCast, e2q]
      have h52 : (2 : ℚ) ^ 52 ≠ 0 := pow_ne_zero _ two_ne_zero
      simp only [Nat.cast_mul, Nat.cast_add, Nat.cast_pow, Nat.cast_ofNat]
      field_simp
      ring
    rw [hval]
    rcases Nat.lt_or_ge (m / 2 ^ (k - 52)) (2 ^ 52 + f) with h | h
    · right; exact Nat.cast_le.2 (Nat.mul_le_mul_right _ h)
    · left; exact Nat.cast_le.2 (Nat.mul_le_mul_right _ h)
  · right
    have hq : m / 2 ^ (k - 52) + 1 ≤ 2 ^ 53 := by
      have : m / 2 ^ (k - 52) < 2 ^ 53 := by
        rw [Nat.div_lt_iff_lt_mul hU, ← pow_add]
        have : 53 + (k - 52) = k + 1 := by omega
        rw [this]; exact hhi
      omega
    have hle : (m / 2 ^ (k - 52) + 1) * 2 ^ (k - 52) ≤ 2 ^ (k + 1) := by
      have e3 : 2 ^ (k + 1) = 2 ^ 53 * 2 ^ (k - 52) := by
        rw [← pow_add]; congr 1; omega
      rw [e3]; exact Nat.mul_le_mul_right _ hq
    have h0 : (((m / 2 ^ (k - 52) + 1) * 2 ^ (k - 52) : Nat) : ℚ) ≤ ((2 ^ (k + 1) : Nat) : ℚ) :=
      Nat.cast_le.2 hle
    have h1 : (2 : ℚ) ^ j ≤ (2 : ℚ) ^ j * (1 + (f : ℚ) / 2 ^ 52) :=
      le_mul_of_one_le_right hpj.le (by linarith)
    have h3 : (2 : ℚ) ^ ((k + 1 : Nat) : Int) ≤ (2 : ℚ) ^ j :=
      zpow_le_zpow_right₀ (by norm_num) (by push_cast; omega)
    have h4 : (2 : ℚ) ^ ((k + 1 : Nat) : Int) = ((2 ^ (k + 1) : Nat) : ℚ) := by
      rw [zpow_natCast]; push_cast; rfl
    linarith

/-- No normal binary64 magnitude lies strictly between the truncation of `m`
to 53 significant bits and `m` itself. -/
theorem normal_le_truncate (m k : Nat) (hk : 52 ≤ k) (hlo : 2 ^ k ≤ m) (hhi : m < 2 ^ (k + 1))
    (e f : Nat) (hf : f < 2 ^ 52)
    (hw : (2 : ℚ) ^ ((e : Int) - 1023) * (1 + (f : ℚ) / 2 ^ 52) ≤ (m : ℚ)) :
    (2 : ℚ) ^ ((e : Int) - 1023) * (1 + (f : ℚ) / 2 ^ 52)
      ≤ ((m / 2 ^ (k - 52) * 2 ^ (k - 52) : Nat) : ℚ) := by
  rcases normal_grid m k hk hlo hhi e f hf with h | h
  · exact h
  · exfalso
    have hU : 0 < 2 ^ (k - 52) := Nat.two_pow_pos _
    have hdm := Nat.div_add_mod m (2 ^ (k - 52))
    have hmod := Nat.mod_lt m hU
    have hlt : m < (m / 2 ^ (k - 52) + 1) * 2 ^ (k - 52) := by
      rw [Nat.add_mul, Nat.one_mul, Nat.mul_comm]
      omega
    have hq : (m : ℚ) < (((m / 2 ^ (k - 52) + 1) * 2 ^ (k - 52) : Nat) : ℚ) :=
      Nat.cast_lt.2 hlt
    linarith

theorem abs_intCast_eq (n : Int) : |(n : ℚ)| = (n.natAbs : ℚ) := by
  rw [Nat.cast_natAbs, Int.cast_abs]

theorem truncated_sign_natAbs (n : Int) (h0 : n ≠ 0) (hT : 0 < truncate53 n.natAbs) :
    (truncated n).sign = n.sign ∧ (truncated n).natAbs = truncate53 n.natAbs := by
  unfold truncated
  constructor
  · rw [Int.sign_mul, Int.sign_sign]
    have : Int.sign (truncate53 n.natAbs : Int) = 1 :=
      Int.sign_eq_one_of_pos (by exact_mod_cast hT)
    rw [this, mul_one]
  · rw [Int.natAbs_mul, Int.natAbs_sign_of_nonzero h0, one_mul, Int.natAbs_ofNat]

theorem truncate53_error (m : Nat) :
    truncate53 m ≤ m ∧ m - truncate53 m < 2 ^ (Nat.log 2 m - 52) := by
  unfold truncate53
  have hU : 0 < 2 ^ (Nat.log 2 m - 52) := Nat.two_pow_pos _
  have h1 := Nat.div_add_mod m (2 ^ (Nat.log 2 m - 52))
  have h2 := Nat.mod_lt m hU
  rw [Nat.mul_comm] at h1
  constructor <;> omega

/-- Among all finite binary64 values of magnitude at most `m`, the truncation
of `m` to 53 significant bits has the largest magnitude. -/
theorem finite_le_truncate53 (m : Nat) (hm : 2 ^ 52 ≤ m) (p : Nat) (w : ℚ)
    (h : binary64_value p = some w) (hw : |w| ≤ (m : ℚ)) : |w| ≤ (truncate53 m : ℚ) := by
  have hpos : 0 < m := by omega
  obtain ⟨hlo, hhi⟩ := log_bounds m hpos
  have hk : 52 ≤ Nat.log 2 m := by
    have := Nat.log_mono_right (b := 2) hm
    rwa [Nat.log_pow (by norm_num)] at this
  rcases finite_magnitude p w h with hsmall | ⟨e, f, hf, heq⟩
  · have h1 : (1 : ℚ) ≤ (truncate53 m : ℚ) := by
      have : 1 ≤ truncate53 m :=
        le_trans (Nat.one_le_two_pow) (truncate_ge_pow m _ hk hlo)
      exact_mod_cast this
    linarith
  · rw [heq] at hw ⊢
    exact normal_le_truncate m _ hk hlo hhi e f hf hw

/-- For a nonzero input the pattern does not depend on the target's choices. -/
theorem do_convert_target_irrelevant (t u : Target) (n : Int) (hn : is_int64 n) (h0 : n ≠ 0) :
    do_convert t n = do_convert u n := by
  rw [do_convert_nonzero t n hn h0, do_convert_nonzero u n hn h0]

/-! ## Values of the truncating and of the reference conversion -/

theorem sig_value (P K S : ℚ) (hP : P ≠ 0) : K * (1 + (S - P) / P) = S * (K / P) := by
  field_simp
  ring

/-- A normal pattern with exponent field `k + 1023` and fraction `S - 2^52`
has value `± S * 2^(k-52)`. -/
theorem normal_value_sig (s k S : Nat) (hS : 2 ^ 52 ≤ S) :
    normal_value s (k + 1023) (S - 2 ^ 52)
      = (-1) ^ s * ((S : ℚ) * (2 : ℚ) ^ ((k : Int) - 52)) := by
  unfold normal_value
  have hz : (((k + 1023 : Nat) : Int) - 1023) = (k : Int) := by push_cast; ring
  have h2 : (2 : ℚ) ≠ 0 := two_ne_zero
  have hP : (2 : ℚ) ^ 52 ≠ 0 := pow_ne_zero _ h2
  have hc : ((S - 2 ^ 52 : Nat) : ℚ) = (S : ℚ) - 2 ^ 52 := by
    rw [Nat.cast_sub hS]; push_cast; rfl
  have hsub : (2 : ℚ) ^ ((k : Int) - 52) = (2 : ℚ) ^ (k : Int) / 2 ^ 52 := by
    rw [zpow_sub₀ h2, zpow_ofNat]
  rw [hz, hc, hsub, mul_assoc, sig_value _ _ _ hP]

theorem round_sig_bounds (m k : Nat) :
    trunc_sig m k ≤ round_sig m k ∧ round_sig m k ≤ trunc_sig m k + 1 := by
  unfold round_sig trunc_sig
  split_ifs <;> omega

theorem do_convert_value (t : Target) (n : Int) (hn : is_int64 n) (h0 : n ≠ 0) :
    binary64_value (do_convert t n)
      = some ((-1) ^ sign n * ((trunc_sig n.natAbs (Nat.log 2 n.natAbs) : ℚ) * ulp n)) := by
  obtain ⟨hs, he, hf⟩ := fields_nonzero t n hn h0
  obtain ⟨_, hk⟩ := leading_zeros_nonzero t n hn h0
  obtain ⟨hpos, _⟩ := natAbs_bounds n hn h0
  obtain ⟨hlo, hhi⟩ := log_bounds n.natAbs hpos
  obtain ⟨hb1, _⟩ := trunc_sig_bounds _ _ hlo hhi
  unfold binary64_value
  rw [if_neg (by omega), if_neg (by omega), hs, he, hf, kept_fraction_eq_sub _ _ hlo,
    normal_value_sig _ _ _ hb1]
  rfl

theorem rne_convert_value (n : Int) (hn : is_int64 n) (h0 : n ≠ 0) :
    binary64_value (rne_convert n)
      = some ((-1) ^ sign n * ((round_sig n.natAbs (Nat.log 2 n.natAbs) : ℚ) * ulp n)) := by
  obtain ⟨hpos, hlt⟩ := natAbs_bounds n hn h0
  obtain ⟨hlo, hhi⟩ := log_bounds n.natAbs hpos
  obtain ⟨hb1, hb2⟩ := trunc_sig_bounds _ _ hlo hhi
  obtain ⟨hr1, hr2⟩ := round_sig_bounds n.natAbs (Nat.log 2 n.natAbs)
  have hk : Nat.log 2 n.natAbs ≤ 63 := by
    have := Nat.log_lt_of_lt_pow (by omega) hlt
    omega
  have hs : sign n ≤ 1 := by unfold sign; split_ifs <;> omega
  have hsign : (if n < 0 then 1 else 0) = sign n := rfl
  unfold rne_convert ulp
  rw [if_neg h0, floor_log2_eq _ hlt, hsign]
  generalize Nat.log 2 n.natAbs = k at *
  split_ifs with hc
  · have hfld := fields_of_sum (sign n) (k + 1 + 1023) 0 hs (by omega) (by norm_num)
    rw [Nat.add_zero] at hfld
    obtain ⟨f1, f2, f3⟩ := hfld
    unfold binary64_value
    rw [if_neg (by omega), if_neg (by omega), f1, f2, f3]
    have h52 : (0 : Nat) = 2 ^ 52 - 2 ^ 52 := by norm_num
    rw [h52, normal_value_sig _ _ _ (le_refl _), hc]
    have harg : (((k + 1 : Nat) : Int) - 52) = ((k : Int) - 52) + 1 := by push_cast; ring
    rw [harg, zpow_add_one₀ two_ne_zero]
    refine congrArg some ?_
    push_cast
    ring
  · have hfld := fields_of_sum (sign n) (k + 1023) (round_sig n.natAbs k - 2 ^ 52) hs
      (by omega) (by omega)
    obtain ⟨f1, f2, f3⟩ := hfld
    unfold binary64_value
    rw [if_neg (by omega), if_neg (by omega), f1, f2, f3,
      normal_value_sig _ _ _ (le_trans hb1 hr1)]

/-- The truncating and the reference conversion never differ by more than one
unit in the last place: the reference value is the truncated value or the next
one up in magnitude. -/
theorem within_one_ulp (t : Target) (n : Int) (hn : is_int64 n) (h0 : n ≠ 0) :
    ∃ a b : ℚ, binary64_value (do_convert t n) = some a ∧
      binary64_value (rne_convert n) = some b ∧ (b = a ∨ |a - b| = ulp n) := by
  refine ⟨_, _, do_convert_value t n hn h0, rne_convert_value n hn h0, ?_⟩
  obtain ⟨hr1, hr2⟩ := round_sig_bounds n.natAbs (Nat.log 2 n.natAbs)
  have hu : (0 : ℚ) < ulp n := by unfold ulp; positivity
  rcases Nat.eq_or_lt_of_le hr1 with heq | hlt
  · left; rw [heq]
  · right
    have hR : round_sig n.natAbs (Nat.log 2 n.natAbs)
        = trunc_sig n.natAbs (Nat.log 2 n.natAbs) + 1 := by omega
    rw [hR, ← mul_sub, abs_mul, abs_pow, abs_neg, abs_one, one_pow, one_mul]
    push_cast
    have : (trunc_sig n.natAbs (Nat.log 2 n.natAbs) : ℚ) * ulp n
        - ((trunc_sig n.natAbs (Nat.log 2 n.natAbs) : ℚ) + 1) * ulp n = -ulp n := by ring
    rw [this, abs_neg, abs_of_pos hu]

/-! ## The reference conversion rounds to nearest, ties to even -/

theorem finite_grid (m k : Nat) (hk : 52 ≤ k) (hlo : 2 ^ k ≤ m) (hhi : m < 2 ^ (k + 1))
    (p : Nat) (w : ℚ) (h : binary64_value p = some w) :
    |w| ≤ ((m / 2 ^ (k - 52) * 2 ^ (k - 52) : Nat) : ℚ) ∨
    (((m / 2 ^ (k - 52) + 1) * 2 ^ (k - 52) : Nat) : ℚ) ≤ |w| := by
  rcases finite_magnitude p w h with hsmall | ⟨e, f, hf, heq⟩
  · left
    have h1 : (1 : ℚ) ≤ ((m / 2 ^ (k - 52) * 2 ^ (k - 52) : Nat) : ℚ) := by
      have : 1 ≤ m / 2 ^ (k - 52) * 2 ^ (k - 52) :=
        le_trans (Nat.one_le_two_pow) (truncate_ge_pow m k hk hlo)
      exact_mod_cast this
    linarith
  · rw [heq]
    exact normal_grid m k hk hlo hhi e f hf

theorem round_sig_cases (m k : Nat) (hk : 52 < k) :
    (round_sig m k = m / 2 ^ (k - 52) ∧ 2 * (m % 2 ^ (k - 52)) ≤ 2 ^ (k - 52)) ∨
    (round_sig m k = m / 2 ^ (k - 52) + 1 ∧ 2 ^ (k - 52) ≤ 2 * (m % 2 ^ (k - 52))) := by
  unfold round_sig
  rw [if_neg (by omega)]
  split_ifs with hc
  · right; exact ⟨rfl, by omega⟩
  · left; exact ⟨rfl, by omega⟩

theorem intCast_signed (n : Int) : (n : ℚ) = (-1) ^ sign n * (n.natAbs : ℚ) := by
  rw [Nat.cast_natAbs]
  unfold sign
  split_ifs with h
  · rw [abs_of_neg h]; push_cast; ring
  · rw [abs_of_nonneg (not_lt.1 h)]; simp

theorem ulp_natCast (n : Int) (hk : 52 ≤ Nat.log 2 n.natAbs) :
    ulp n = ((2 ^ (Nat.log 2 n.natAbs - 52) : Nat) : ℚ) := by
  unfold ulp
  have : ((Nat.log 2 n.natAbs : Int) - 52) = ((Nat.log 2 n.natAbs - 52 : Nat) : Int) := by
    omega
  rw [this, zpow_natCast]
  push_cast
  rfl

theorem nearest_of_grid (R q U r m X : ℚ) (hm : m = q * U + r) (hr0 : 0 ≤ r) (hrU : r < U)
    (hR : (R = q ∧ 2 * r ≤ U) ∨ (R = q + 1 ∧ U ≤ 2 * r))
    (hX : X ≤ q * U ∨ (q + 1) * U ≤ X) :
    |R * U - m| ≤ |X - m| := by
  rcases hR with ⟨rfl, h2⟩ | ⟨rfl, h2⟩
  · have e : R * U - m = -r := by rw [hm]; ring
    rw [e, abs_neg, abs_of_nonneg hr0]
    rcases hX with h | h
    · rw [abs_sub_comm]; exact le_trans (by linarith) (le_abs_self _)
    · exact le_trans (by linarith) (le_abs_self _)
  · have e : (q + 1) * U - m = U - r := by rw [hm]; ring
    rw [e, abs_of_nonneg (by linarith)]
    rcases hX with h | h
    · rw [abs_sub_comm]; exact le_trans (by linarith) (le_abs_self _)
    · exact le_trans (by linarith) (le_abs_self _)

/-- The reference conversion returns a finite binary64 value that is at least
as close to `n` as every other finite binary64 value. -/
theorem rne_convert_nearest (n : Int) (hn : is_int64 n) (h0 : n ≠ 0) :
    ∃ b : ℚ, binary64_value (rne_convert n) = some b ∧
      ∀ (p : Nat) (w : ℚ), binary64_value p = some w → |b - (n : ℚ)| ≤ |w - (n : ℚ)| := by
  obtain ⟨hpos, hlt⟩ := natAbs_bounds n hn h0
  obtain ⟨hlo, hhi⟩ := log_bounds n.natAbs hpos
  rcases Nat.lt_or_ge 52 (Nat.log 2 n.natAbs) with hk | hk
  · refine ⟨_, rne_convert_value n hn h0, fun p w hp => ?_⟩
    have hU : 0 < 2 ^ (Nat.log 2 n.natAbs - 52) := Nat.two_pow_pos _
    have hdm := Nat.div_add_mod n.natAbs (2 ^ (Nat.log 2 n.natAbs - 52))
    have hmod := Nat.mod_lt n.natAbs hU
    have hmq : (n.natAbs : ℚ)
        = ((n.natAbs / 2 ^ (Nat.log 2 n.natAbs - 52) : Nat) : ℚ)
            * ((2 ^ (Nat.log 2 n.natAbs - 52) : Nat) : ℚ)
          + ((n.natAbs % 2 ^ (Nat.log 2 n.natAbs - 52) : Nat) : ℚ) := by
      rw [← Nat.cast_mul, ← Nat.cast_add, Nat.mul_comm, hdm]
    have hR : (((round_sig n.natAbs (Nat.log 2 n.natAbs) : Nat) : ℚ)
          = ((n.natAbs / 2 ^ (Nat.log 2 n.natAbs - 52) : Nat) : ℚ) ∧
        2 * ((n.natAbs % 2 ^ (Nat.log 2 n.natAbs - 52) : Nat) : ℚ)
          ≤ ((2 ^ (Nat.log 2 n.natAbs - 52) : Nat) : ℚ)) ∨
        (((round_sig n.natAbs (Nat.log 2 n.natAbs) : Nat) : ℚ)
          = ((n.natAbs / 2 ^ (Nat.log 2 n.natAbs - 52) : Nat) : ℚ) + 1 ∧
        ((2 ^ (Nat.log 2 n.natAbs - 52) : Nat) : ℚ)
          ≤ 2 * ((n.natAbs % 2 ^ (Nat.log 2 n.natAbs - 52) : Nat) : ℚ)) := by
      rcases round_sig_cases n.natAbs _ hk with ⟨h1, h2⟩ | ⟨h1, h2⟩
      · left; exact ⟨by rw [h1], by exact_mod_cast h2⟩
      · right; exact ⟨by rw [h1]; push_cast; rfl, by exact_mod_cast h2⟩
    have hX := finite_grid n.natAbs _ hk.le hlo hhi p w hp
    rw [Nat.cast_mul, Nat.cast_mul, Nat.cast_add, Nat.cast_one] at hX
    have key := nearest_of_grid _ _ _ _ _ |w| hmq (Nat.cast_nonneg _)
      (Nat.cast_lt.2 hmod) hR hX
    have tri := abs_abs_sub_abs_le_abs_sub w (n : ℚ)
    rw [abs_intCast_eq] at tri
    have hb : |(-1) ^ sign n * ((round_sig n.natAbs (Nat.log 2 n.natAbs) : ℚ) * ulp n) - (n : ℚ)|
        = |(round_sig n.natAbs (Nat.log 2 n.natAbs) : ℚ)
            * ((2 ^ (Nat.log 2 n.natAbs - 52) : Nat) : ℚ) - (n.natAbs : ℚ)| := by
      rw [ulp_natCast n hk.le, intCast_signed n, ← mul_sub, abs_mul, abs_pow, abs_neg,
        abs_one, one_pow, one_mul]
    rw [hb]
    exact le_trans key tri
  · have hd : 2 ^ (Nat.log 2 n.natAbs - 52) ∣ n.natAbs := by
      have : Nat.log 2 n.natAbs - 52 = 0 := by omega
      rw [this]; simp
    have hv := binary64_value_nonzero ⟨64, false⟩ n hn h0
    rw [rne_convert_of_dvd ⟨64, false⟩ n hn h0 hd, truncated_of_dvd n hd] at hv
    refine ⟨_, hv, fun p w _ => ?_⟩
    rw [sub_self, abs_zero]
    exact abs_nonneg _

/-- On a tie the reference conversion returns the even significand. -/
theorem round_sig_tie_even (m k : Nat) (hk : 52 < k)
    (htie : 2 * (m % 2 ^ (k - 52)) = 2 ^ (k - 52)) : round_sig m k % 2 = 0 := by
  unfold round_sig
  rw [if_neg (by omega)]
  split_ifs with hc <;> omega

/-! ## The claims -/

/-- C1: for every signed 64-bit integer `n` with `0 < |n| < 2^53`, the pattern
built by `do_convert` is exactly the IEEE-754 binary64 encoding of `n`:
decoding it as `(-1)^s * 2^(e-1023) * (1 + f/2^52)` with `s` bit 63, `e` bits
62..52 and `f` bits 51..0 gives exactly `n`, with `1 ≤ e ≤ 2046`; it is the
pattern the round-to-nearest-even reference conversion produces. -/
theorem C1_exact_below_two_pow_53 (t : Target) (n : Int) (hn : is_int64 n)
    (h0 : 0 < n.natAbs) (h53 : n.natAbs < 2 ^ 53) :
    normal_value (sign_bit (do_convert t n)) (exp_field (do_convert t n))
      (frac_field (do_convert t n)) = (n : ℚ) ∧
    1 ≤ exp_field (do_convert t n) ∧ exp_field (do_convert t n) ≤ 2046 ∧
    binary64_value (do_convert t n) = some (n : ℚ) ∧
    do_convert t n = rne_convert n := by
  have hne : n ≠ 0 := by omega
  have hd := dvd_of_small _ h53
  obtain ⟨_, he, _⟩ := fields_nonzero t n hn hne
  have hk := log_le_52 _ h53
  refine ⟨?_, by omega, by omega, value_of_small t n h0 h53, rne_convert_of_dvd t n hn hne hd⟩
  rw [normal_value_nonzero t n hn hne, truncated_of_dvd n hd]

/-- Instance of C1 at `n = -12345`. -/
theorem C1_witness :
    binary64_value (do_convert ⟨64, true⟩ (-12345)) = some ((-12345 : Int) : ℚ) :=
  (C1_exact_below_two_pow_53 ⟨64, true⟩ (-12345) (by decide) (by decide) (by decide)).2.2.2.1

/-- C2: `do_convert(1)` is the bit pattern of `1.0` (`0x3FF0000000000000`),
`do_convert(-1)` that of `-1.0` (`0xBFF0000000000000`) and `do_convert(1024)`
that of `1024.0` (`0x4090000000000000`), whichever way the target resolves the
64-bit-wide shift that the inputs `1` and `-1` cause. -/
theorem C2_unit_examples (t : Target) :
    (do_convert t 1 = 0x3FF0000000000000 ∧ binary64_value (do_convert t 1) = some 1) ∧
    (do_convert t (-1) = 0xBFF0000000000000 ∧ binary64_value (do_convert t (-1)) = some (-1)) ∧
    (do_convert t 1024 = 0x4090000000000000 ∧
      binary64_value (do_convert t 1024) = some 1024) := by
  have e1 : rne_convert 1 = 0x3FF0000000000000 := by decide
  have e2 : rne_convert (-1) = 0xBFF0000000000000 := by decide
  have e3 : rne_convert 1024 = 0x4090000000000000 := by decide
  have h1 := rne_convert_of_dvd t 1 (by decide) (by decide) (dvd_of_small _ (by decide))
  have h2 := rne_convert_of_dvd t (-1) (by decide) (by decide) (dvd_of_small _ (by decide))
  have h3 := rne_convert_of_dvd t 1024 (by decide) (by decide) (dvd_of_small _ (by decide))
  have v1 := value_of_small t 1 (by decide) (by decide)
  have v2 := value_of_small t (-1) (by decide) (by decide)
  have v3 := value_of_small t 1024 (by decide) (by decide)
  refine ⟨⟨h1.trans e1, ?_⟩, ⟨h2.trans e2, ?_⟩, ⟨h3.trans e3, ?_⟩⟩
  · simpa using v1
  · simpa using v2
  · simpa using v3

/-- C3: for every signed 64-bit integer `n` (negation of `INT64_MIN` wrapping,
and for `n = 0` whatever count in `0..64` the leading-zero primitive returns),
bit 63 of the pattern returned by `do_convert` is 1 if and only if `n < 0`;
the exponent stays below `2^11`, so shifted by 52 it never reaches bit 63. -/
theorem C3_sign_bit (t : Target) (n : Int) (hn : is_int64 n) (hz : t.clz_zero ≤ 64) :
    (sign_bit (do_convert t n) = 1 ↔ n < 0) ∧
    exponent t n < 2 ^ 11 ∧ shl64 t (exponent t n) 52 < 2 ^ 63 := by
  by_cases h0 : n = 0
  · subst h0
    have hm : magnitude 0 = 0 := by decide
    have he : exponent t 0 = 1086 - t.clz_zero := by
      unfold exponent leading_zeros builtin_clzl to_uint64
      rw [hm, if_pos rfl]
      omega
    have hp : do_convert t 0 = (1086 - t.clz_zero) * 2 ^ 52 := by
      rw [do_convert_zero]
      unfold to_uint64
      omega
    refine ⟨?_, by omega, ?_⟩
    · rw [hp]; unfold sign_bit; omega
    · rw [he, shl64_small t _ 52 (by omega) (by omega)]; omega
  · obtain ⟨hs, _, _⟩ := fields_nonzero t n hn h0
    obtain ⟨_, hk⟩ := leading_zeros_nonzero t n hn h0
    have he := exponent_nonzero t n hn h0
    refine ⟨?_, by omega, ?_⟩
    · rw [hs]; unfold sign; split_ifs with h <;> simp [h]
    · rw [he, shl64_small t _ 52 (by omega) (by omega)]; omega

/-- Instance of C3 at `n = INT64_MIN`. -/
theorem C3_witness : sign_bit (do_convert ⟨64, false⟩ INT64_MIN) = 1 ↔ INT64_MIN < 0 :=
  (C3_sign_bit ⟨64, false⟩ INT64_MIN (by decide) (by decide)).1

/-- C4: round trip.  For signed 64-bit integers with `0 < |n| < 2^53`, the
pattern returned by `do_convert` decodes to a value whose integral part
(truncation toward zero) is exactly `n`; consequently `do_convert` is injective
on that range. -/
theorem C4_round_trip (t : Target) (a b : Int) (ha0 : 0 < a.natAbs) (ha : a.natAbs < 2 ^ 53)
    (hb0 : 0 < b.natAbs) (hb : b.natAbs < 2 ^ 53) :
    (∃ q, binary64_value (do_convert t a) = some q ∧ integral_part q = a) ∧
    (do_convert t a = do_convert t b → a = b) := by
  refine ⟨⟨(a : ℚ), value_of_small t a ha0 ha, integral_part_intCast a⟩, fun h => ?_⟩
  have va := value_of_small t a ha0 ha
  have vb := value_of_small t b hb0 hb
  rw [h, vb] at va
  exact_mod_cast (Option.some.inj va).symm

/-- Instance of C4 at `a = -7`, `b = 7`. -/
theorem C4_witness :
    (∃ q, binary64_value (do_convert ⟨64, true⟩ (-7)) = some q ∧ integral_part q = -7) ∧
    (do_convert ⟨64, true⟩ (-7) = do_convert ⟨64, true⟩ 7 → (-7 : Int) = 7) :=
  C4_round_trip ⟨64, true⟩ (-7) 7 (by decide) (by decide) (by decide) (by decide)

/-- C5: truncation, not rounding.  For every signed 64-bit integer `n` with
`|n| ≥ 2^53` and `n ≠ INT64_MIN`, with `k = floor(log2 |n|)`, the value decoded
from `do_convert(n)` is an integer `v` with the sign of `n` and magnitude
`floor(|n| / 2^(k-52)) * 2^(k-52)`; it satisfies `0 ≤ |n| - |v| < 2^(k-52)`,
and no finite binary64 value of magnitude at most `|n|` has a larger magnitude
than `v`: it is the binary64 value nearest to `n` in the direction of zero. -/
theorem C5_truncation (t : Target) (n : Int) (hn : is_int64 n) (_hmin : n ≠ INT64_MIN)
    (h53 : 2 ^ 53 ≤ n.natAbs) :
    ∃ v : Int,
      binary64_value (do_convert t n) = some (v : ℚ) ∧
      v.sign = n.sign ∧
      v.natAbs = n.natAbs / 2 ^ (Nat.log 2 n.natAbs - 52) * 2 ^ (Nat.log 2 n.natAbs - 52) ∧
      v.natAbs ≤ n.natAbs ∧
      n.natAbs - v.natAbs < 2 ^ (Nat.log 2 n.natAbs - 52) ∧
      ∀ (p : Nat) (w : ℚ), binary64_value p = some w → |w| ≤ |(n : ℚ)| → |w| ≤ |(v : ℚ)| := by
  have h0 : n ≠ 0 := by intro h; subst h; simp at h53
  have hpos : 0 < n.natAbs := by omega
  obtain ⟨hlo, hhi⟩ := log_bounds n.natAbs hpos
  have hk : 52 ≤ Nat.log 2 n.natAbs := by
    have := Nat.log_mono_right (b := 2) h53
    rw [Nat.log_pow (by norm_num)] at this
    omega
  have hT : 0 < truncate53 n.natAbs :=
    lt_of_lt_of_le (Nat.two_pow_pos _) (truncate_ge_pow _ _ hk hlo)
  obtain ⟨hsgn, habs⟩ := truncated_sign_natAbs n h0 hT
  obtain ⟨hle, herr⟩ := truncate53_error n.natAbs
  refine ⟨truncated n, binary64_value_nonzero t n hn h0, hsgn, habs, ?_, ?_, ?_⟩
  · rw [habs]; exact hle
  · rw [habs]; exact herr
  · intro p w hp hw
    rw [abs_intCast_eq] at hw ⊢
    rw [habs]
    exact finite_le_truncate53 _ (by omega) p w hp hw

/-- Instance of C5 at `n = -(2^53 + 3)`. -/
theorem C5_witness :
    ∃ v : Int, binary64_value (do_convert ⟨64, true⟩ (-(2 ^ 53 + 3))) = some (v : ℚ) ∧
      v.natAbs ≤ (-(2 ^ 53 + 3) : Int).natAbs :=
  (C5_truncation ⟨64, true⟩ (-(2 ^ 53 + 3)) (by decide) (by decide) (by decide)).imp
    fun _ h => ⟨h.1, h.2.2.2.1⟩

/-- C6: for every nonzero signed 64-bit integer `n ≠ INT64_MIN` whose magnitude
is representable exactly in 53 significant bits (`|n| = m * 2^j` with
`0 < m < 2^53`), the pattern returned by `do_convert` decodes exactly to `n`
and equals the pattern of the round-to-nearest-even reference conversion. -/
theorem C6_exact_when_representable (t : Target) (n : Int) (hn : is_int64 n) (h0 : n ≠ 0)
    (_hmin : n ≠ INT64_MIN) (m j : Nat) (_hm0 : 0 < m) (hm : m < 2 ^ 53)
    (hrep : n.natAbs = m * 2 ^ j) :
    binary64_value (do_convert t n) = some (n : ℚ) ∧
    normal_value (sign_bit (do_convert t n)) (exp_field (do_convert t n))
      (frac_field (do_convert t n)) = (n : ℚ) ∧
    do_convert t n = rne_convert n := by
  obtain ⟨hpos, _⟩ := natAbs_bounds n hn h0
  obtain ⟨hlo, _⟩ := log_bounds n.natAbs hpos
  have hlt : 2 ^ Nat.log 2 n.natAbs < 2 ^ (53 + j) := by
    calc 2 ^ Nat.log 2 n.natAbs ≤ n.natAbs := hlo
      _ = m * 2 ^ j := hrep
      _ < 2 ^ 53 * 2 ^ j := Nat.mul_lt_mul_of_pos_right hm (Nat.two_pow_pos _)
      _ = 2 ^ (53 + j) := (pow_add 2 53 j).symm
  have hk : Nat.log 2 n.natAbs < 53 + j := (Nat.pow_lt_pow_iff_right (by norm_num)).1 hlt
  have hj : 2 ^ j ∣ n.natAbs := ⟨m, by rw [hrep, Nat.mul_comm]⟩
  have hd : 2 ^ (Nat.log 2 n.natAbs - 52) ∣ n.natAbs :=
    Dvd.dvd.trans (pow_dvd_pow 2 (by omega)) hj
  refine ⟨?_, ?_, rne_convert_of_dvd t n hn h0 hd⟩
  · rw [binary64_value_nonzero t n hn h0, truncated_of_dvd n hd]
  · rw [normal_value_nonzero t n hn h0, truncated_of_dvd n hd]

/-- Instance of C6 at `n = 3 * 2^60`. -/
theorem C6_witness :
    binary64_value (do_convert ⟨64, false⟩ (3 * 2 ^ 60)) = some (((3 * 2 ^ 60 : Int)) : ℚ) :=
  (C6_exact_when_representable ⟨64, false⟩ (3 * 2 ^ 60) (by decide) (by decide) (by decide)
    3 60 (by decide) (by decide) (by decide)).1

/-- C7 as stated fails: at `n = 2^53 + 1` the truncating pattern is not
different from the round-to-nearest-even pattern. -/
theorem C7_counterexample :
    ¬ (do_convert ⟨64, false⟩ (2 ^ 53 + 1) ≠ rne_convert (2 ^ 53 + 1)) := by
  decide

/-- C7, amended: for `n = 2^53 + 1` the truncating result of `do_convert`
equals the round-to-nearest-even double.  The input lies halfway between the
adjacent binary64 values `2^53` (pattern `0x4340000000000000`, even fraction)
and `2^53 + 2` (pattern `0x4340000000000001`, odd fraction); ties-to-even and
truncation both give `2^53`.  The two conversions do differ at `n = 2^53 + 3`,
where truncation gives `2^53 + 2` and rounding gives `2^53 + 4`. -/
theorem C7_tie_rounds_to_truncation (t : Target) :
    (do_convert t (2 ^ 53 + 1) = 0x4340000000000000 ∧
      rne_convert (2 ^ 53 + 1) = 0x4340000000000000) ∧
    (binary64_value 0x4340000000000000 = some (2 ^ 53) ∧
      binary64_value 0x4340000000000001 = some (2 ^ 53 + 2) ∧
      frac_field 0x4340000000000000 % 2 = 0 ∧ frac_field 0x4340000000000001 % 2 = 1) ∧
    (do_convert t (2 ^ 53 + 3) = 0x4340000000000001 ∧
      rne_convert (2 ^ 53 + 3) = 0x4340000000000002 ∧
      binary64_value 0x4340000000000002 = some (2 ^ 53 + 4)) := by
  have h1 : do_convert ⟨64, false⟩ (2 ^ 53 + 1) = 0x4340000000000000 := by decide
  have h3 : do_convert ⟨64, false⟩ (2 ^ 53 + 3) = 0x4340000000000001 := by decide
  refine ⟨⟨?_, by decide⟩, ⟨?_, ?_, by decide, by decide⟩, ⟨?_, by decide, ?_⟩⟩
  · rw [do_convert_target_irrelevant t ⟨64, false⟩ _ (by decide) (by decide)]; exact h1
  · norm_num [binary64_value, exp_field, normal_value, sign_bit, frac_field]
  · norm_num [binary64_value, exp_field, normal_value, sign_bit, frac_field]
  · rw [do_convert_target_irrelevant t ⟨64, false⟩ _ (by decide) (by decide)]; exact h3
  · norm_num [binary64_value, exp_field, normal_value, sign_bit, frac_field]

/-- C8 as stated fails: no signed 64-bit input, on any target, has a decoded
`do_convert` value more than one unit in the last place away from the
round-to-nearest-even conversion. -/
theorem C8_counterexample :
    ¬ ∃ (t : Target) (n : Int), is_int64 n ∧ n ≠ 0 ∧ n ≠ INT64_MIN ∧
        ∃ a b : ℚ, binary64_value (do_convert t n) = some a ∧
          binary64_value (rne_convert n) = some b ∧ ulp n < |a - b| := by
  rintro ⟨t, n, hn, h0, _, a, b, ha, hb, hgt⟩
  obtain ⟨a', b', ha', hb', hcase⟩ := within_one_ulp t n hn h0
  have ea : a = a' := Option.some.inj (ha.symm.trans ha')
  have eb : b = b' := Option.some.inj (hb.symm.trans hb')
  subst ea eb
  have hu : (0 : ℚ) < ulp n := by unfold ulp; positivity
  rcases hcase with h | h
  · rw [h, sub_self, abs_zero] at hgt
    linarith
  · rw [h] at hgt
    exact lt_irrefl _ hgt

/-- C8, amended: for every nonzero signed 64-bit integer `n ≠ INT64_MIN`, the
value decoded from `do_convert(n)` differs from the round-to-nearest-even
binary64 conversion of `n` by at most one unit in the last place `2^(k-52)`,
`k = floor(log2 |n|)`: the two are equal or exactly one unit apart. -/
theorem C8_at_most_one_ulp (t : Target) (n : Int) (hn : is_int64 n) (h0 : n ≠ 0)
    (_hmin : n ≠ INT64_MIN) :
    ∃ a b : ℚ, binary64_value (do_convert t n) = some a ∧
      binary64_value (rne_convert n) = some b ∧
      |a - b| ≤ ulp n ∧ (b = a ∨ |a - b| = ulp n) := by
  obtain ⟨a, b, ha, hb, hcase⟩ := within_one_ulp t n hn h0
  refine ⟨a, b, ha, hb, ?_, hcase⟩
  have hu : (0 : ℚ) < ulp n := by unfold ulp; positivity
  rcases hcase with h | h
  · rw [h, sub_self, abs_zero]; exact hu.le
  · exact h.le

/-- Instance of C8 (amended) at `n = 2^53 + 3`. -/
theorem C8_witness :
    ∃ a b : ℚ, binary64_value (do_convert ⟨64, false⟩ (2 ^ 53 + 3)) = some a ∧
      binary64_value (rne_convert (2 ^ 53 + 3)) = some b ∧
      |a - b| ≤ ulp (2 ^ 53 + 3) ∧ (b = a ∨ |a - b| = ulp (2 ^ 53 + 3)) :=
  C8_at_most_one_ulp ⟨64, false⟩ (2 ^ 53 + 3) (by decide) (by decide) (by decide)

/-- C9 as stated fails: with the negation wrapping, the pattern returned for
`INT64_MIN` is not different from `0xC3E0000000000000`. -/
theorem C9_counterexample :
    ¬ (do_convert ⟨64, false⟩ INT64_MIN ≠ 0xC3E0000000000000) := by
  decide

/-- C9, amended: for the input `INT64_MIN`, with the negation wrapping modulo
`2^64`, `do_convert` returns exactly `0xC3E0000000000000`, the binary64
encoding of `-2^63`: the wrapped magnitude `2^63` is, as an unsigned value, the
true absolute value, and the pattern decodes to `-2^63` and agrees with the
round-to-nearest-even reference conversion. -/
theorem C9_int64_min_exact (t : Target) :
    magnitude INT64_MIN = 2 ^ 63 ∧
    do_convert t INT64_MIN = 0xC3E0000000000000 ∧
    binary64_value (do_convert t INT64_MIN) = some (-(2 ^ 63)) ∧
    do_convert t INT64_MIN = rne_convert INT64_MIN := by
  have hp : do_convert ⟨64, false⟩ INT64_MIN = 0xC3E0000000000000 := by decide
  have ht : do_convert t INT64_MIN = do_convert ⟨64, false⟩ INT64_MIN :=
    do_convert_target_irrelevant t ⟨64, false⟩ _ (by decide) (by decide)
  refine ⟨by decide, ht.trans hp, ?_, ?_⟩
  · rw [ht, hp]
    norm_num [binary64_value, exp_field, normal_value, sign_bit, frac_field]
  · rw [ht, hp]
    decide

/-- C10: for the input `INT64_MIN`, negating it (wrapping modulo `2^64`) yields
the original value unchanged, and the unsigned magnitude computed by
`do_convert` has the same 64 bits as the input, `0x8000000000000000`; for every
other negative input the magnitude differs from the input's bits. -/
theorem C10_magnitude_of_int64_min (n : Int) (hn : is_int64 n) (hneg : n < 0)
    (hne : n ≠ INT64_MIN) :
    (wrap_int64 (-INT64_MIN) = INT64_MIN ∧
      magnitude INT64_MIN = to_uint64 INT64_MIN ∧
      magnitude INT64_MIN = 0x8000000000000000) ∧
    magnitude n ≠ to_uint64 n := by
  refine ⟨by decide, ?_⟩
  unfold is_int64 INT64_MIN INT64_MAX at *
  unfold magnitude sign to_uint64 wrap_int64
  rw [if_pos hneg]
  simp only [ne_eq, one_ne_zero, not_false_eq_true, if_true]
  omega

/-- Instance of C10 at `n = -1`: magnitude 1 against input bits `2^64 - 1`. -/
theorem C10_witness : magnitude (-1) ≠ to_uint64 (-1) :=
  (C10_magnitude_of_int64_min (-1) (by decide) (by decide) (by decide)).2

/-! ## Field layout, shift amounts and order -/

theorem land_disjoint (a b i : Nat) (hb : b < 2 ^ i) : 2 ^ i * a &&& b = 0 := by
  apply Nat.eq_of_testBit_eq
  intro j
  rw [Nat.testBit_and, Nat.testBit_mul_pow_two, Nat.zero_testBit]
  rcases Nat.lt_or_ge j i with h | h
  · simp [Nat.not_le_of_lt h]
  · have hlt : b < 2 ^ j := lt_of_lt_of_le hb (Nat.pow_le_pow_right (by norm_num) h)
    rw [Nat.testBit_lt_two_pow hlt]
    simp

/-- C11: field layout.  For every nonzero signed 64-bit integer `n`, with `m`
the unsigned magnitude computed by `do_convert` and `k = floor(log2 m)`, bits
62..52 of the returned pattern equal `1023 + k = (63 - leading_zeros) + 1023`,
bits 51..0 equal the significand `(m << (leading_zeros + 1)) >> 12`, which is
below `2^52`, and bit 63 is the sign; the three shifted fields have no bit in
common, so the OR that assembles them equals the sum
`sign * 2^63 + exponent * 2^52 + significand`. -/
theorem C11_field_layout (t : Target) (n : Int) (hn : is_int64 n) (h0 : n ≠ 0) :
    (exp_field (do_convert t n) = 1023 + Nat.log 2 (magnitude n) ∧
      exp_field (do_convert t n) = exponent t n ∧
      (exponent t n : Int) = (63 - (leading_zeros t n : Int)) + 1023) ∧
    (frac_field (do_convert t n)
        = shr64 (shl64 t (magnitude n) (leading_zeros t n + 1)) 12 ∧
      frac_field (do_convert t n) = significand t n ∧
      significand t n < 2 ^ 52) ∧
    sign_bit (do_convert t n) = sign n ∧
    (shl64 t (sign n) 63 &&& shl64 t (exponent t n) 52 = 0 ∧
      (shl64 t (sign n) 63 ||| shl64 t (exponent t n) 52) &&& significand t n = 0) ∧
    do_convert t n = sign n * 2 ^ 63 + exponent t n * 2 ^ 52 + significand t n := by
  obtain ⟨hs, he, hf⟩ := fields_nonzero t n hn h0
  obtain ⟨hlz, hk⟩ := leading_zeros_nonzero t n hn h0
  obtain ⟨hpos, _⟩ := natAbs_bounds n hn h0
  obtain ⟨hlo, hhi⟩ := log_bounds n.natAbs hpos
  have hexp := exponent_nonzero t n hn h0
  have hsig := significand_nonzero t n hn h0
  have hflt := kept_fraction_lt _ _ hlo hhi
  have hsg : sign n ≤ 1 := by unfold sign; split_ifs <;> omega
  have hsh1 : shl64 t (sign n) 63 = 2 ^ 63 * sign n := by
    rw [shl64_small t _ 63 (by omega) (by omega), Nat.mul_comm]
  have hsh2 : shl64 t (exponent t n) 52 = 2 ^ 52 * exponent t n := by
    rw [shl64_small t _ 52 (by omega) (by omega), Nat.mul_comm]
  refine ⟨⟨?_, ?_, ?_⟩, ⟨?_, ?_, ?_⟩, hs, ⟨?_, ?_⟩, ?_⟩
  · rw [he, magnitude_eq_natAbs n hn, Nat.add_comm]
  · rw [he, hexp]
  · rw [hexp, hlz]; omega
  · rw [hf, ← hsig]; rfl
  · rw [hf, hsig]
  · rw [hsig]; exact hflt
  · rw [hsh1, hsh2]
    exact land_disjoint _ _ 63 (by omega)
  · have e : shl64 t (sign n) 63 ||| shl64 t (exponent t n) 52
        = 2 ^ 52 * (sign n * 2 ^ 11 + exponent t n) := by
      rw [hsh1, hsh2, ← Nat.mul_add_lt_is_or (by omega)]
      ring
    rw [e]
    exact land_disjoint _ _ 52 (by rw [hsig]; exact hflt)
  · rw [do_convert_nonzero t n hn h0, hexp, hsig]

/-- Instance of C11 at `n = -12345`. -/
theorem C11_witness :
    do_convert ⟨64, true⟩ (-12345)
      = sign (-12345) * 2 ^ 63 + exponent ⟨64, true⟩ (-12345) * 2 ^ 52
        + significand ⟨64, true⟩ (-12345) :=
  (C11_field_layout ⟨64, true⟩ (-12345) (by decide) (by decide)).2.2.2.2

theorem do_convert_zero_closed (t : Target) (hz : t.clz_zero ≤ 64) :
    do_convert t 0 = (1086 - t.clz_zero) * 2 ^ 52 := by
  rw [do_convert_zero]
  unfold to_uint64
  omega

theorem exponent_zero (t : Target) :
    exponent t 0 = to_uint64 ((63 - (t.clz_zero : Int)) + 1023) := by
  have hm : magnitude 0 = 0 := by decide
  unfold exponent leading_zeros builtin_clzl
  rw [hm, if_pos rfl]

theorem significand_zero (t : Target) : significand t 0 = 0 := by
  have hm : magnitude 0 = 0 := by decide
  unfold significand shr64 shl64
  rw [hm]
  cases t.shift_masked <;> simp

/-- C12: zero is a silently incorrect result.  For the input 0, whatever count
`lz` in `0..64` the leading-zero primitive returns for a zero magnitude, the
significand is 0 and the exponent field of the returned pattern is
`(63 - lz) + 1023 ≥ 1022`, hence nonzero, so `do_convert(0)` is neither the
pattern of `+0.0` nor that of `-0.0`, and its value `2^(63 - lz)` is not zero;
with `lz = 64` the pattern is `0x3FE0000000000000`, that is `0.5`. -/
theorem C12_zero_input (t : Target) (hz : t.clz_zero ≤ 64) :
    (magnitude 0 = 0 ∧ leading_zeros t 0 = t.clz_zero ∧ significand t 0 = 0) ∧
    ((exponent t 0 : Int) = (63 - (t.clz_zero : Int)) + 1023 ∧
      exp_field (do_convert t 0) = exponent t 0 ∧
      1022 ≤ exp_field (do_convert t 0) ∧ exp_field (do_convert t 0) ≠ 0) ∧
    (do_convert t 0 ≠ 0 ∧ do_convert t 0 ≠ 0x8000000000000000) ∧
    (binary64_value (do_convert t 0) = some ((2 : ℚ) ^ ((63 : Int) - (t.clz_zero : Int))) ∧
      binary64_value (do_convert t 0) ≠ some 0) ∧
    (t.clz_zero = 64 → do_convert t 0 = 0x3FE0000000000000 ∧
      binary64_value (do_convert t 0) = some (1 / 2)) := by
  have hp := do_convert_zero_closed t hz
  have hexp : exponent t 0 = 1086 - t.clz_zero := by
    rw [exponent_zero]; unfold to_uint64; omega
  have hfld := fields_of_sum 0 (1086 - t.clz_zero) 0 (by omega) (by omega) (by norm_num)
  rw [Nat.zero_mul, Nat.zero_add, Nat.add_zero, ← hp] at hfld
  obtain ⟨f1, f2, f3⟩ := hfld
  have hval : binary64_value (do_convert t 0)
      = some ((2 : ℚ) ^ ((63 : Int) - (t.clz_zero : Int))) := by
    unfold binary64_value
    rw [if_neg (by omega), if_neg (by omega), f1, f2, f3]
    unfold normal_value
    have harg : (((1086 - t.clz_zero : Nat) : Int) - 1023) = (63 : Int) - (t.clz_zero : Int) := by
      omega
    rw [harg]
    simp
  refine ⟨⟨by decide, ?_, significand_zero t⟩, ⟨?_, ?_, ?_, ?_⟩, ⟨?_, ?_⟩, ⟨hval, ?_⟩, ?_⟩
  · have hm : magnitude 0 = 0 := by decide
    unfold leading_zeros builtin_clzl
    rw [hm, if_pos rfl]
  · rw [hexp]; omega
  · rw [f2, hexp]
  · rw [f2]; omega
  · rw [f2]; omega
  · rw [hp]; omega
  · rw [hp]; omega
  · rw [hval]
    intro h
    have h2 := Option.some.inj h
    have hpos : (0 : ℚ) < (2 : ℚ) ^ ((63 : Int) - (t.clz_zero : Int)) := by positivity
    linarith
  · intro h64
    have hpat : do_convert t 0 = 0x3FE0000000000000 := by rw [hp, h64]; norm_num
    refine ⟨hpat, ?_⟩
    rw [hpat]
    norm_num [binary64_value, exp_field, normal_value, sign_bit, frac_field]

/-- Instance of C12 for a target whose leading-zero count of 0 is 64. -/
theorem C12_witness :
    do_convert ⟨64, false⟩ 0 ≠ 0 ∧ do_convert ⟨64, false⟩ 0 ≠ 0x8000000000000000 :=
  (C12_zero_input ⟨64, false⟩ (by decide)).2.2.1

theorem log_pos_iff_two_le (m : Nat) (h0 : 0 < m) : 1 ≤ Nat.log 2 m ↔ 2 ≤ m := by
  obtain ⟨hlo, hhi⟩ := log_bounds m h0
  constructor
  · intro hk
    have : 2 ^ 1 ≤ 2 ^ Nat.log 2 m := Nat.pow_le_pow_right (by norm_num) hk
    omega
  · intro hm
    by_contra hk
    have hk0 : Nat.log 2 m = 0 := by omega
    rw [hk0] at hhi
    omega

/-- C13: shift-amount safety.  For every nonzero signed 64-bit integer `n`
with unsigned magnitude `m`, the left-shift amount `leading_zeros + 1` lies in
`1..63` if and only if `m ≥ 2`; for `m = 1` (exactly `n = 1` or `n = -1`) the
amount is 64, the full width of the operand, and the significand is 0 both
when the over-wide shift yields 0 and when the amount is reduced modulo 64. -/
theorem C13_shift_amount (t : Target) (n : Int) (hn : is_int64 n) (h0 : n ≠ 0) :
    ((1 ≤ leading_zeros t n + 1 ∧ leading_zeros t n + 1 ≤ 63) ↔ 2 ≤ magnitude n) ∧
    (magnitude n = 1 ↔ (n = 1 ∨ n = -1)) ∧
    (magnitude n = 1 →
      leading_zeros t n + 1 = 64 ∧
      (shl64 ⟨t.clz_zero, false⟩ 1 64 = 0 ∧ significand ⟨t.clz_zero, false⟩ n = 0) ∧
      (shl64 ⟨t.clz_zero, true⟩ 1 64 = 1 ∧ significand ⟨t.clz_zero, true⟩ n = 0) ∧
      significand t n = 0) := by
  obtain ⟨hlz, hk⟩ := leading_zeros_nonzero t n hn h0
  obtain ⟨hpos, _⟩ := natAbs_bounds n hn h0
  have hiff := log_pos_iff_two_le n.natAbs hpos
  have hmag := magnitude_eq_natAbs n hn
  have hsig : ∀ u : Target, magnitude n = 1 → significand u n = 0 := by
    intro u h1
    rw [hmag] at h1
    rw [significand_nonzero u n hn h0, h1]
    simp [kept_fraction]
  have hwide : ∀ c : Nat, shl64 ⟨c, false⟩ 1 64 = 0 := fun c => by simp [shl64]
  have hmask : ∀ c : Nat, shl64 ⟨c, true⟩ 1 64 = 1 := fun c => by simp [shl64]
  refine ⟨?_, ?_, fun h1 => ⟨?_, ⟨hwide _, hsig _ h1⟩, ⟨hmask _, hsig _ h1⟩, hsig t h1⟩⟩
  · rw [hmag, hlz]
    constructor
    · intro h; exact hiff.1 (by omega)
    · intro h; have := hiff.2 h; omega
  · rw [hmag]; omega
  · rw [hmag] at h1
    have hk0 : ¬ (1 ≤ Nat.log 2 n.natAbs) := fun h => by have := hiff.1 h; omega
    rw [hlz]; omega

/-- Instance of C13 at `n = -1`. -/
theorem C13_witness :
    leading_zeros ⟨64, true⟩ (-1) + 1 = 64 ∧ significand ⟨64, true⟩ (-1) = 0 :=
  have h := (C13_shift_amount ⟨64, true⟩ (-1) (by decide) (by decide)).2.2 (by decide)
  ⟨h.1, h.2.2.2⟩

theorem truncate53_ge_pow (m : Nat) (h0 : 0 < m) : 2 ^ Nat.log 2 m ≤ truncate53 m := by
  obtain ⟨hlo, _⟩ := log_bounds m h0
  rcases Nat.lt_or_ge (Nat.log 2 m) 52 with hk | hk
  · have hd : Nat.log 2 m - 52 = 0 := by omega
    unfold truncate53
    rw [hd, pow_zero, Nat.div_one, Nat.mul_one]
    exact hlo
  · exact truncate_ge_pow m _ hk hlo

/-- The magnitude of the decoded value of a nonzero input. -/
theorem abs_truncated (n : Int) (h0 : n ≠ 0) :
    |((truncated n : Int) : ℚ)| = (truncate53 n.natAbs : ℚ) := by
  have hpos : 0 < n.natAbs := Int.natAbs_pos.2 h0
  have hT : 0 < truncate53 n.natAbs :=
    lt_of_lt_of_le (Nat.two_pow_pos _) (truncate53_ge_pow _ hpos)
  rw [abs_intCast_eq, (truncated_sign_natAbs n h0 hT).2]

/-- C14: every result is a normal finite double.  For every nonzero signed
64-bit integer `n` (including `INT64_MIN` with wrapping negation), the
exponent field of the pattern returned by `do_convert` lies in `1023..1086`,
so it is never 0 (zero or subnormal) and never 2047 (infinity or NaN), and the
pattern decodes to a value whose magnitude lies in `[1, 2^63]`. -/
theorem C14_normal_finite (t : Target) (n : Int) (hn : is_int64 n) (h0 : n ≠ 0) :
    (1023 ≤ exp_field (do_convert t n) ∧ exp_field (do_convert t n) ≤ 1086) ∧
    (exp_field (do_convert t n) ≠ 0 ∧ exp_field (do_convert t n) ≠ 2047) ∧
    ∃ v : ℚ, binary64_value (do_convert t n) = some v ∧ 1 ≤ |v| ∧ |v| ≤ 2 ^ 63 := by
  obtain ⟨_, he, _⟩ := fields_nonzero t n hn h0
  obtain ⟨_, hk⟩ := leading_zeros_nonzero t n hn h0
  obtain ⟨hpos, _⟩ := natAbs_bounds n hn h0
  refine ⟨by omega, by omega, _, binary64_value_nonzero t n hn h0, ?_, ?_⟩
  · rw [abs_truncated n h0]
    have h1 : 1 ≤ truncate53 n.natAbs :=
      le_trans Nat.one_le_two_pow (truncate53_ge_pow _ hpos)
    exact_mod_cast h1
  · rw [abs_truncated n h0]
    have h2 : truncate53 n.natAbs ≤ 2 ^ 63 := by
      have hle := (truncate53_error n.natAbs).1
      have hb : n.natAbs ≤ 2 ^ 63 := by
        unfold is_int64 INT64_MIN INT64_MAX at hn
        omega
      exact le_trans hle hb
    exact_mod_cast h2

/-- Instance of C14 at `n = INT64_MIN`. -/
theorem C14_witness :
    1023 ≤ exp_field (do_convert ⟨64, false⟩ INT64_MIN) ∧
      exp_field (do_convert ⟨64, false⟩ INT64_MIN) ≤ 1086 :=
  (C14_normal_finite ⟨64, false⟩ INT64_MIN (by decide) (by decide)).1

theorem truncate53_mono (m1 m2 : Nat) (h0 : 0 < m1) (h : m1 ≤ m2) :
    truncate53 m1 ≤ truncate53 m2 := by
  have hk : Nat.log 2 m1 ≤ Nat.log 2 m2 := Nat.log_mono_right h
  rcases Nat.eq_or_lt_of_le hk with heq | hlt
  · unfold truncate53
    rw [heq]
    exact Nat.mul_le_mul_right _ (Nat.div_le_div_right h)
  · obtain ⟨_, hhi⟩ := log_bounds m1 h0
    have h1 := (truncate53_error m1).1
    have h2 : 2 ^ (Nat.log 2 m1 + 1) ≤ 2 ^ Nat.log 2 m2 :=
      Nat.pow_le_pow_right (by norm_num) hlt
    have h3 := truncate53_ge_pow m2 (by omega)
    omega

theorem truncated_mono (a b : Int) (ha : a ≠ 0) (hb : b ≠ 0) (h : a ≤ b) :
    truncated a ≤ truncated b := by
  unfold truncated
  rcases lt_or_gt_of_ne ha with han | hap
  · rw [Int.sign_eq_neg_one_of_neg han]
    rcases lt_or_gt_of_ne hb with hbn | hbp
    · rw [Int.sign_eq_neg_one_of_neg hbn]
      have hm : truncate53 b.natAbs ≤ truncate53 a.natAbs :=
        truncate53_mono _ _ (Int.natAbs_pos.2 hb) (by omega)
      have : (truncate53 b.natAbs : Int) ≤ (truncate53 a.natAbs : Int) := by exact_mod_cast hm
      linarith
    · rw [Int.sign_eq_one_of_pos hbp]
      have h1 : (0 : Int) ≤ (truncate53 a.natAbs : Int) := Int.ofNat_nonneg _
      have h2 : (0 : Int) ≤ (truncate53 b.natAbs : Int) := Int.ofNat_nonneg _
      linarith
  · have hbp : 0 < b := lt_of_lt_of_le hap h
    rw [Int.sign_eq_one_of_pos hap, Int.sign_eq_one_of_pos hbp]
    have hm : truncate53 a.natAbs ≤ truncate53 b.natAbs :=
      truncate53_mono _ _ (Int.natAbs_pos.2 ha) (by omega)
    have : (truncate53 a.natAbs : Int) ≤ (truncate53 b.natAbs : Int) := by exact_mod_cast hm
    linarith

/-- C15: monotonicity.  For all nonzero signed 64-bit integers `a ≤ b`
(neither equal to `INT64_MIN`), the value decoded from `do_convert(a)` is less
than or equal to the value decoded from `do_convert(b)`: truncation never
reorders two inputs. -/
theorem C15_monotone (t : Target) (a b : Int) (ha : is_int64 a) (hb : is_int64 b)
    (ha0 : a ≠ 0) (hb0 : b ≠ 0) (_hamin : a ≠ INT64_MIN) (_hbmin : b ≠ INT64_MIN)
    (hab : a ≤ b) :
    ∃ va vb : ℚ, binary64_value (do_convert t a) = some va ∧
      binary64_value (do_convert t b) = some vb ∧ va ≤ vb := by
  refine ⟨_, _, binary64_value_nonzero t a ha ha0, binary64_value_nonzero t b hb hb0, ?_⟩
  exact_mod_cast truncated_mono a b ha0 hb0 hab

/-- Instance of C15 at `a = -(2^53 + 3)`, `b = 2^53 + 1`. -/
theorem C15_witness :
    ∃ va vb : ℚ, binary64_value (do_convert ⟨64, true⟩ (-(2 ^ 53 + 3))) = some va ∧
      binary64_value (do_convert ⟨64, true⟩ (2 ^ 53 + 1)) = some vb ∧ va ≤ vb :=
  C15_monotone ⟨64, true⟩ (-(2 ^ 53 + 3)) (2 ^ 53 + 1) (by decide) (by decide) (by decide)
    (by decide) (by decide) (by decide) (by decide)

theorem xor_top_bit (r : Nat) (hr : r < 2 ^ 63) : (2 ^ 63 + r) ^^^ r = 2 ^ 63 := by
  apply Nat.eq_of_testBit_eq
  intro j
  have h1 := Nat.testBit_mul_pow_two_add 1 hr j
  rw [Nat.mul_one] at h1
  rw [Nat.testBit_xor, h1, Nat.testBit_two_pow]
  rcases Nat.lt_trichotomy j 63 with h | h | h
  · simp [h, Nat.ne_of_gt h]
  · subst h
    simp [Nat.testBit_lt_two_pow hr]
  · have hlt : r < 2 ^ j := lt_of_lt_of_le hr (Nat.pow_le_pow_right (by norm_num) h.le)
    have hne : ¬ (63 = j) := by omega
    have hj : ¬ j < 63 := by omega
    have h1j : Nat.testBit 1 (j - 63) = false := by
      have : (1 : Nat) < 2 ^ (j - 63) := Nat.one_lt_two_pow (by omega)
      exact Nat.testBit_lt_two_pow this
    simp [hj, hne, Nat.testBit_lt_two_pow hlt, h1j]

theorem sign_neg (n : Int) (h0 : n ≠ 0) : sign (-n) + sign n = 1 := by
  unfold sign
  split_ifs <;> omega

theorem truncated_neg (n : Int) : truncated (-n) = -truncated n := by
  unfold truncated
  rw [Int.sign_neg, Int.natAbs_neg, neg_mul]

/-- Low 63 bits of the pattern of a nonzero input: exponent and fraction,
which depend on the magnitude only. -/
theorem low_bits_nonzero (t : Target) (n : Int) (hn : is_int64 n) (h0 : n ≠ 0) :
    do_convert t n = sign n * 2 ^ 63
        + ((Nat.log 2 n.natAbs + 1023) * 2 ^ 52
            + kept_fraction n.natAbs (Nat.log 2 n.natAbs)) ∧
    (Nat.log 2 n.natAbs + 1023) * 2 ^ 52
        + kept_fraction n.natAbs (Nat.log 2 n.natAbs) < 2 ^ 63 := by
  obtain ⟨_, hk⟩ := leading_zeros_nonzero t n hn h0
  obtain ⟨hpos, _⟩ := natAbs_bounds n hn h0
  obtain ⟨hlo, hhi⟩ := log_bounds n.natAbs hpos
  have hf := kept_fraction_lt _ _ hlo hhi
  rw [do_convert_nonzero t n hn h0]
  constructor <;> omega

/-- C16: odd symmetry.  For every signed 64-bit integer `n` with `n ≠ 0` and
`n ≠ INT64_MIN`, the patterns returned by `do_convert(n)` and `do_convert(-n)`
agree on bits 62..0 and differ exactly in bit 63 (their exclusive OR is
`2^63`), so the decoded values are opposite: `do_convert(-n) = -do_convert(n)`. -/
theorem C16_odd_symmetry (t : Target) (n : Int) (hn : is_int64 n) (h0 : n ≠ 0)
    (hmin : n ≠ INT64_MIN) :
    (do_convert t (-n) % 2 ^ 63 = do_convert t n % 2 ^ 63 ∧
      exp_field (do_convert t (-n)) = exp_field (do_convert t n) ∧
      frac_field (do_convert t (-n)) = frac_field (do_convert t n)) ∧
    (sign_bit (do_convert t (-n)) + sign_bit (do_convert t n) = 1 ∧
      do_convert t (-n) ^^^ do_convert t n = 2 ^ 63) ∧
    ∃ v : ℚ, binary64_value (do_convert t n) = some v ∧
      binary64_value (do_convert t (-n)) = some (-v) := by
  have hn' : is_int64 (-n) := by
    unfold is_int64 INT64_MIN INT64_MAX at *
    omega
  have h0' : -n ≠ 0 := by omega
  obtain ⟨hs, he, hf⟩ := fields_nonzero t n hn h0
  obtain ⟨hs', he', hf'⟩ := fields_nonzero t (-n) hn' h0'
  obtain ⟨hp, hlow⟩ := low_bits_nonzero t n hn h0
  obtain ⟨hp', _⟩ := low_bits_nonzero t (-n) hn' h0'
  rw [Int.natAbs_neg] at he' hf' hp'
  have hsum := sign_neg n h0
  refine ⟨⟨?_, by rw [he, he'], by rw [hf, hf']⟩, ⟨by rw [hs, hs']; exact hsum, ?_⟩,
    _, binary64_value_nonzero t n hn h0, ?_⟩
  · rw [hp, hp']
    omega
  · rw [hp, hp']
    generalize (Nat.log 2 n.natAbs + 1023) * 2 ^ 52
      + kept_fraction n.natAbs (Nat.log 2 n.natAbs) = r at hlow ⊢
    have hcases : (sign (-n) = 1 ∧ sign n = 0) ∨ (sign (-n) = 0 ∧ sign n = 1) := by omega
    rcases hcases with ⟨e1, e2⟩ | ⟨e1, e2⟩
    · rw [e1, e2, Nat.zero_mul, Nat.zero_add, Nat.one_mul]
      exact xor_top_bit r hlow
    · rw [e1, e2, Nat.zero_mul, Nat.zero_add, Nat.one_mul, Nat.xor_comm]
      exact xor_top_bit r hlow
  · rw [binary64_value_nonzero t (-n) hn' h0', truncated_neg]
    push_cast
    rfl

/-- Instance of C16 at `n = 2^53 + 3`. -/
theorem C16_witness :
    do_convert ⟨64, false⟩ (-(2 ^ 53 + 3)) ^^^ do_convert ⟨64, false⟩ (2 ^ 53 + 3) = 2 ^ 63 :=
  (C16_odd_symmetry ⟨64, false⟩ (2 ^ 53 + 3) (by decide) (by decide) (by decide)).2.1.2

end Ieee
